import Mathlib

/-!
Shallow embedding of the semantic-analysis core of the LMNtal language
server (src/analysis.rs, src/analysis/rule.rs, src/analysis/semantic_token.rs,
src/reference.rs, src/utils.rs), together with theorems settling the
specification claims about it.

Machine integers (`u32`, `usize`) are modelled as `Nat`: every quantity
involved (line, column, length, index) is a count that the source never
overflows nor negates, and the only subtractions performed are guarded by
comparisons in the source.
-/

namespace LS

/-! ## Positions, spans and LSP ranges (lmntalc::util, src/utils.rs) -/

/-- `lmntalc::util::Pos`: a zero-based line/column position. -/
structure Pos where
  line : Nat
  column : Nat
deriving DecidableEq, Repr

/-- `lmntalc::util::Span`: a source span with its low and high positions and
its length (`Span::len`).  `Span::is_empty` is length zero. -/
structure Span where
  low : Pos
  high : Pos
  len : Nat
deriving DecidableEq, Repr

/-- `tower_lsp::lsp_types::Position`. -/
structure Position where
  line : Nat
  character : Nat
deriving DecidableEq, Repr

/-- `tower_lsp::lsp_types::Range` (field `end` renamed `stop`, `end` being a
Lean keyword). -/
structure Range where
  start : Position
  stop : Position
deriving DecidableEq, Repr

/-- `utils::to_position`. -/
def to_position (p : Pos) : Position :=
  { line := p.line, character := p.column }

/-- `utils::span_to_range`. -/
def span_to_range (s : Span) : Range :=
  { start := to_position s.low, stop := to_position s.high }

/-! ## Diagnostics (tower_lsp::lsp_types) -/

inductive DiagnosticSeverity where
  | error
  | warning
  | information
  | hint
deriving DecidableEq, Repr

/-- `tower_lsp::lsp_types::Location`. -/
structure Location where
  uri : String
  range : Range
deriving DecidableEq, Repr

/-- `tower_lsp::lsp_types::DiagnosticRelatedInformation`. -/
structure DiagnosticRelatedInformation where
  location : Location
  message : String
deriving DecidableEq, Repr

/-- `tower_lsp::lsp_types::Diagnostic`, restricted to the fields the analyzer
ever sets to something other than `None` (the source always passes `None` for
`code`, `source`, `tags`, `data` and `code_description`). -/
structure Diagnostic where
  range : Range
  severity : Option DiagnosticSeverity
  message : String
  related_information : Option (List DiagnosticRelatedInformation)
deriving DecidableEq, Repr

/-! ## Semantic tokens (src/analysis/semantic_token.rs) -/

def RULE_LEGEND_TYPE : Nat := 0
def MEMBRANE_LEGEND_TYPE : Nat := 1
def ATOM_LEGEND_TYPE : Nat := 2
def LINK_LEGEND_TYPE : Nat := 3
def HYPERLINK_LEGEND_TYPE : Nat := 4
def CONTEXT_LEGEND_TYPE : Nat := 5
def KEYWORD_ATOM_LEGEND_TYPE : Nat := 6
def OPERATOR_ATOM_LEGEND_TYPE : Nat := 7
def STRING_ATOM_LEGEND_TYPE : Nat := 8
def NUMBER_ATOM_LEGEND_TYPE : Nat := 9

/-- `semantic_token::Token`. -/
structure Token where
  token_type : Nat
  line : Nat
  col : Nat
  length : Nat
deriving DecidableEq, Repr

/-- `tower_lsp::lsp_types::SemanticToken` (`token_modifiers_bitset` is always
set to 0 by the source and kept as a field). -/
structure SemanticToken where
  delta_line : Nat
  delta_start : Nat
  length : Nat
  token_type : Nat
  token_modifiers_bitset : Nat
deriving DecidableEq, Repr

/-! ## The syntax tree (lmntalc::ASTNode, restricted by the grammar)

The source dispatches on `ASTNode` dynamically and hits `unreachable!()` on
node shapes the grammar excludes (a `ProcessList` or `Rule` in process
position, a non-`ProcessList` where a process list is expected).  The
embedding makes those shapes unrepresentable by typing the tree instead, so
every `unreachable!()` arm of the source vanishes statically. -/

/-- `lmntalc::frontend::ast::AtomName`. -/
inductive AtomName where
  | keyword (s : String)
  | op (s : String)
  | int (n : Int)
  | float
  | plain (s : String)
deriving DecidableEq, Repr

mutual

/-- `ASTNode` shapes valid in process position:
`Membrane`, `Atom`, `Link`, `Context`. -/
inductive ProcessNode where
  | membrane (name : String) (nameSpan : Span) (processLists : List ProcessList)
      (rules : List RuleNode) (span : Span)
  | atom (name : AtomName) (nameSpan : Span) (args : List ProcessNode) (span : Span)
  | link (name : String) (hyperlink : Bool) (span : Span)
  | context (span : Span)

/-- `ASTNode::ProcessList`. -/
inductive ProcessList where
  | mk (processes : List ProcessNode) (span : Span)

/-- `ASTNode::Rule`. -/
inductive RuleNode where
  | mk (name : String) (nameSpan : Span) (head : ProcessList)
      (propagation : Option ProcessList) (guard : Option ProcessList)
      (body : Option ProcessList) (span : Span)

end

/-! ## Outline symbols (tower_lsp::lsp_types::DocumentSymbol) -/

inductive SymbolKind where
  | struct
  | function
deriving DecidableEq, Repr

/-- `tower_lsp::lsp_types::DocumentSymbol`, restricted to the fields the
analyzer sets to something other than `None` (`detail`, `tags` and
`deprecated` are always `None` in the source).  The source\x27s
`children : Option<Vec<DocumentSymbol>>` is either `None` (`leaf`, used for
rules) or `Some children` (`branch`, used for membranes); the two
constructors stand for the two cases, avoiding a doubly nested inductive. -/
inductive DocumentSymbol where
  | leaf (name : String) (kind : SymbolKind) (range : Range)
      (selection_range : Range)
  | branch (name : String) (kind : SymbolKind) (range : Range)
      (selection_range : Range) (children : List DocumentSymbol)

/-! ## Occurrence maps

`HashMap<String, Vec<Span>>` is modelled as an association list with unique
keys, kept in insertion order.  `HashMap` iteration order is unspecified in
Rust; the list order stands in for one iteration order, and every claim about
the maps is per-name, hence independent of it. -/

/-- A link-name → occurrence-list mapping. -/
abbrev OccMap := List (String × List Span)

/-- `map.entry(name).or_default().push(span)`. -/
def OccMap.add (k : String) (s : Span) : OccMap → OccMap
  | [] => [(k, [s])]
  | (k0, v) :: rest =>
      if k0 = k then (k0, v ++ [s]) :: rest else (k0, v) :: OccMap.add k s rest

/-- `map.entry(name).or_default().extend(occ)`. -/
def OccMap.addMany (k : String) (occ : List Span) : OccMap → OccMap
  | [] => [(k, occ)]
  | (k0, v) :: rest =>
      if k0 = k then (k0, v ++ occ) :: rest else (k0, v) :: OccMap.addMany k occ rest

/-- The per-key merge loop of `AnalysisResult::extend`. -/
def OccMap.extend (m other : OccMap) : OccMap :=
  other.foldl (fun acc e => OccMap.addMany e.1 e.2 acc) m

/-! ## Analyzer state and results (src/analysis.rs) -/

/-- The mutable fields of `Analyzer` (`uri` plus the four accumulating
vectors). -/
structure AState where
  uri : String
  semantic_tokens : List Token
  diagnostics : List Diagnostic
  refs : List (List Span)
  symbols : List Span

/-- `AnalysisResult`. -/
structure AnalysisResult where
  symbols : List DocumentSymbol
  link_occurrences : OccMap
  hyperlink_occurrences : OccMap

instance : Inhabited AnalysisResult := ⟨⟨[], [], []⟩⟩

/-- `AnalysisResult::default()`. -/
def AnalysisResult.empty : AnalysisResult := ⟨[], [], []⟩

/-- `AnalysisResult::extend`. -/
def AnalysisResult.extend (r other : AnalysisResult) : AnalysisResult :=
  { symbols := r.symbols ++ other.symbols
    link_occurrences := OccMap.extend r.link_occurrences other.link_occurrences
    hyperlink_occurrences := OccMap.extend r.hyperlink_occurrences other.hyperlink_occurrences }

/-- `RuleAnalysisResult` (src/analysis/rule.rs). -/
structure RuleAnalysisResult where
  symbols : List DocumentSymbol

/-- `AnalysisResult::extend_rules`. -/
def AnalysisResult.extend_rules (r : AnalysisResult) (rr : RuleAnalysisResult) :
    AnalysisResult :=
  { r with symbols := r.symbols ++ rr.symbols }

/-- `ProgramInfo`. -/
structure ProgramInfo where
  semantic_tokens : List Token
  doc_symbol : List DocumentSymbol
  diagnostics : List Diagnostic
  refs : List (List Span)
  symbols : List Span

/-- `Analyzer::add_symbol`. -/
def add_symbol (st : AState) (span : Span) (token_type : Nat) : AState :=
  { st with
    semantic_tokens := st.semantic_tokens ++
      [{ line := span.low.line, col := span.low.column, length := span.len,
         token_type := token_type }]
    symbols := st.symbols ++ [span] }

/-- The diagnostic literal pushed for a top-level link
(src/analysis.rs, `analyze_process`, `Link` arm with `top_level`). -/
def linkAtTopLevelDiag (span : Span) : Diagnostic :=
  { range := span_to_range span
    severity := some .error
    message := "Link at top level"
    related_information := none }

/-- The diagnostic literal pushed for a single occurrence
(src/analysis.rs, `filter_links_top`, arm `1`). -/
def freeLinkDiag (span : Span) : Diagnostic :=
  { range := span_to_range span
    severity := some .error
    message := "Free link"
    related_information := none }

/-- The diagnostic literal pushed per extra occurrence by
`report_multi_occur`, with the related information built from the first and
second occurrences. -/
def multiOccurDiag (uri : String) (first second occur : Span) : Diagnostic :=
  { range := span_to_range occur
    severity := some .error
    message := "Link occurs more than twice"
    related_information := some
      [ { location := { uri := uri, range := span_to_range first }
          message := "First occurrence" }
      , { location := { uri := uri, range := span_to_range second }
          message := "Second occurrence" } ] }

/-- `Analyzer::report_multi_occur`.  The source `unwrap`s the first two
occurrences (panicking on fewer than two); it is only ever called with three
or more, and the under-two arm here returns the state unchanged. -/
def report_multi_occur (st : AState) (occurs : List Span) : AState :=
  match occurs with
  | a :: b :: rest =>
      { st with diagnostics := st.diagnostics ++ rest.map (multiOccurDiag st.uri a b) }
  | _ => st

/-- The body of `Analyzer::filter_links_top`'s per-entry `match occur.len()`. -/
def filter_links_top_entry (st : AState) (occur : List Span) : AState :=
  match occur with
  | [] => st
  | [a] => { st with diagnostics := st.diagnostics ++ [freeLinkDiag a] }
  | [_, _] => { st with refs := st.refs ++ [occur] }
  | _ => report_multi_occur st occur

/-- `Analyzer::filter_links_top`: consume the map, dispatching each entry on
its occurrence count. -/
def filter_links_top (st : AState) (links : OccMap) : AState :=
  links.foldl (fun s e => filter_links_top_entry s e.2) st

/-- `Analyzer::filter_links_inner`: `links.retain(..)`, emitting into the
state in iteration order; returns the retained map alongside the state. -/
def filter_links_inner (st : AState) : OccMap → AState × OccMap
  | [] => (st, [])
  | (k, occ) :: rest =>
      match occ with
      | [] | [_] =>
          ((filter_links_inner st rest).1, (k, occ) :: (filter_links_inner st rest).2)
      | [a, b] =>
          filter_links_inner { st with refs := st.refs ++ [[a, b]] } rest
      | _ =>
          filter_links_inner (report_multi_occur st occ) rest

/-! ## The traversal (src/analysis.rs `analyze_*`, src/analysis/rule.rs)

`Analyzer::analyze_membrane`'s body is inlined into the `membrane` arm of
`analyze_process` (the source's `analyze_process` immediately delegates the
whole node to `analyze_membrane`); the `for` loops that extend an
`AnalysisResult` become the explicit accumulating recursions
`analyze_processes`, `analyze_process_lists` and `analyze_rules`.
`rule.rs` calls `analyze_process_list` on head/propagation/body without the
`top_level` flag of `analysis.rs`'s signature; those are rule scopes, not the
program's outermost process list, so the flag is `false` there. -/

mutual

/-- The `let token_type = match name.0 {..}` classification of the atom arm
of `analyze_process`. -/
def atom_token_type : AtomName → Nat
  | .keyword _ => KEYWORD_ATOM_LEGEND_TYPE
  | .op _ => OPERATOR_ATOM_LEGEND_TYPE
  | .int _ => NUMBER_ATOM_LEGEND_TYPE
  | .float => NUMBER_ATOM_LEGEND_TYPE
  | .plain _ => ATOM_LEGEND_TYPE

/-- `Analyzer::analyze_process` (with `Analyzer::analyze_membrane` inlined in
the `membrane` arm). -/
def analyze_process (st : AState) (top_level : Bool) :
    ProcessNode → AState × AnalysisResult
  | .membrane name nameSpan pls rules span =>
      let (st1, result) := analyze_process_lists st pls AnalysisResult.empty
      let (st2, links) := filter_links_inner st1 result.link_occurrences
      let result := { result with link_occurrences := links }
      let (st3, result) := analyze_rules st2 rules result
      let st4 := add_symbol st3 nameSpan MEMBRANE_LEGEND_TYPE
      let children := result.symbols
      let result := { result with symbols :=
        [DocumentSymbol.branch (if name = "" then "Anonymous membrane" else name)
          .struct (span_to_range span) (span_to_range nameSpan) children] }
      (st4, result)
  | .atom name nameSpan args _ =>
      let (st1, result) := analyze_processes st false args AnalysisResult.empty
      (add_symbol st1 nameSpan (atom_token_type name), result)
  | .link name hyperlink span =>
      if top_level then
        ({ st with diagnostics := st.diagnostics ++ [linkAtTopLevelDiag span] },
         AnalysisResult.empty)
      else if hyperlink then
        (add_symbol st span HYPERLINK_LEGEND_TYPE,
         { AnalysisResult.empty with hyperlink_occurrences := [(name, [span])] })
      else
        (add_symbol st span LINK_LEGEND_TYPE,
         { AnalysisResult.empty with link_occurrences := [(name, [span])] })
  | .context span =>
      (add_symbol st span CONTEXT_LEGEND_TYPE, AnalysisResult.empty)
termination_by p => sizeOf p
decreasing_by all_goals simp_wf; all_goals omega

/-- The `for process in processes { result.extend(..) }` loop of
`analyze_process_list`. -/
def analyze_processes (st : AState) (top_level : Bool) (ps : List ProcessNode)
    (acc : AnalysisResult) : AState × AnalysisResult :=
  match ps with
  | [] => (st, acc)
  | p :: rest =>
      let (st1, r) := analyze_process st top_level p
      analyze_processes st1 top_level rest (acc.extend r)
termination_by sizeOf ps
decreasing_by all_goals simp_wf; all_goals omega

/-- `Analyzer::analyze_process_list`. -/
def analyze_process_list (st : AState) (top_level : Bool) :
    ProcessList → AState × AnalysisResult
  | .mk processes _ => analyze_processes st top_level processes AnalysisResult.empty
termination_by pl => sizeOf pl
decreasing_by all_goals simp_wf; all_goals omega

/-- The `for process_list in process_lists { result.extend(..) }` loop of
`analyze_membrane` (always a non-top scope). -/
def analyze_process_lists (st : AState) (pls : List ProcessList)
    (acc : AnalysisResult) : AState × AnalysisResult :=
  match pls with
  | [] => (st, acc)
  | pl :: rest =>
      let (st1, r) := analyze_process_list st false pl
      analyze_process_lists st1 rest (acc.extend r)
termination_by sizeOf pls
decreasing_by all_goals simp_wf; all_goals omega

/-- The `for rule in rules { result.extend_rules(..) }` loop. -/
def analyze_rules (st : AState) (rs : List RuleNode) (acc : AnalysisResult) :
    AState × AnalysisResult :=
  match rs with
  | [] => (st, acc)
  | r :: rest =>
      let (st1, rr) := analyze_rule st r
      analyze_rules st1 rest (acc.extend_rules rr)
termination_by sizeOf rs
decreasing_by all_goals simp_wf; all_goals omega

/-- `Analyzer::analyze_rule` (src/analysis/rule.rs).  `analyze_guard` is a
no-op in the source and is elided. -/
def analyze_rule (st : AState) : RuleNode → AState × RuleAnalysisResult
  | .mk name nameSpan head propagation _guard body span =>
      let selection_range :=
        if nameSpan.len ≠ 0 then span_to_range nameSpan else span_to_range span
      let range :=
        if nameSpan.len ≠ 0 then
          { start := { line := nameSpan.low.line, character := nameSpan.low.column }
            stop := { line := span.high.line, character := span.high.column } }
        else span_to_range span
      let st0 :=
        if nameSpan.len ≠ 0 then
          { st with semantic_tokens := st.semantic_tokens ++
              [{ line := nameSpan.low.line, col := nameSpan.low.column,
                 length := nameSpan.len, token_type := RULE_LEGEND_TYPE }] }
        else st
      let (st1, result) := analyze_process_list st0 false head
      let (st2, result) :=
        match propagation with
        | some p =>
            let (st', r) := analyze_process_list st1 false p
            (st', result.extend r)
        | none => (st1, result)
      let (st3, links) := filter_links_inner st2 result.link_occurrences
      let result := { result with link_occurrences := links }
      let (st4, result) :=
        match body with
        | some b =>
            let (st', r) := analyze_process_list st3 false b
            (st', result.extend r)
        | none => (st3, result)
      let st5 := filter_links_top st4 result.link_occurrences
      (st5, { symbols :=
        [DocumentSymbol.leaf name .function range selection_range] })
termination_by r => sizeOf r
decreasing_by all_goals simp_wf; all_goals omega

end

/-- The `for process_list in process_lists` loop of `Analyzer::analyze`:
walk the outermost membrane\x27s process lists at top level. -/
def analyze_top_lists (st : AState) (acc : AnalysisResult) :
    List ProcessList → AState × AnalysisResult
  | [] => (st, acc)
  | pl :: rest =>
      analyze_top_lists (analyze_process_list st true pl).1
        (acc.extend (analyze_process_list st true pl).2) rest

/-- The collection phase of `Analyzer::analyze`: walk the outermost
membrane\x27s process lists at top level, then its rules.  On a non-membrane
root the `if let` of the source does not fire and the result stays default. -/
def analyze_top (uri : String) (ast : ProcessNode) : AState × AnalysisResult :=
  match ast with
  | .membrane _ _ pls rules _ =>
      let lres := analyze_top_lists ⟨uri, [], [], [], []⟩ AnalysisResult.empty pls
      analyze_rules lres.1 rules lres.2
  | _ => (⟨uri, [], [], [], []⟩, AnalysisResult.empty)

/-- `Analyzer::analyze`: collect, resolve plain links terminally, flush the
remaining hyperlink occurrence lists into `refs`, and package the result. -/
def analyze (uri : String) (ast : ProcessNode) : ProgramInfo :=
  let stres := analyze_top uri ast
  let st := filter_links_top stres.1 stres.2.link_occurrences
  { semantic_tokens := st.semantic_tokens
    doc_symbol := stres.2.symbols
    diagnostics := st.diagnostics
    refs := st.refs ++ stres.2.hyperlink_occurrences.map Prod.snd
    symbols := st.symbols }

/-! ## Token delta-encoding (src/analysis/semantic_token.rs, `to_semantic_tokens`) -/

/-- The comparator of `tokens.sort_by(..)`: ascending by `(line, col)`. -/
def tokenLt (a b : Token) : Bool :=
  a.line < b.line || (a.line == b.line && a.col < b.col)

/-- One insertion step of a stable sort by `tokenLt`: the new element lands
after every element it does not strictly precede, as Rust's stable
`sort_by` keeps equal-keyed elements in their original order. -/
def insertToken (t : Token) : List Token → List Token
  | [] => [t]
  | u :: us => if tokenLt t u then t :: u :: us else u :: insertToken t us

/-- `tokens.sort_by(|a, b| a.line.cmp(&b.line).then(a.col.cmp(&b.col)))`,
as a stable insertion sort. -/
def sortTokens (ts : List Token) : List Token :=
  ts.foldl (fun acc t => insertToken t acc) []

/-- The delta-encoding loop of `to_semantic_tokens`, carrying `last_line` and
`last_start` (both initially 0).  The source's `u32` subtractions are exact
because the list is sorted: `line ≥ last_line` always, and `col ≥ last_start`
whenever `delta_line == 0`. -/
def to_semantic_tokens_go (last_line last_start : Nat) :
    List Token → List SemanticToken
  | [] => []
  | t :: rest =>
      { delta_line := t.line - last_line
        delta_start := if t.line - last_line = 0 then t.col - last_start else t.col
        length := t.length, token_type := t.token_type, token_modifiers_bitset := 0 }
        :: to_semantic_tokens_go t.line t.col rest

/-- `to_semantic_tokens`: sort, then delta-encode. -/
def to_semantic_tokens (ts : List Token) : List SemanticToken :=
  to_semantic_tokens_go 0 0 (sortTokens ts)

/-- Modelled from the spec: the decoder of the delta encoding —
"reconstructing absolute positions from the deltas in order", accumulating
lines and resetting the column base on each line change.  The repository has
no decoder (the editor client decodes); this one follows the claim's words. -/
def decode_semantic_tokens_go (last_line last_start : Nat) :
    List SemanticToken → List (Nat × Nat × Nat × Nat)
  | [] => []
  | s :: rest =>
      (last_line + s.delta_line,
       if s.delta_line = 0 then last_start + s.delta_start else s.delta_start,
       s.length, s.token_type) ::
        decode_semantic_tokens_go (last_line + s.delta_line)
          (if s.delta_line = 0 then last_start + s.delta_start else s.delta_start) rest

/-- Decode from the initial `(0, 0)` base, mirroring the encoder. -/
def decode_semantic_tokens (ss : List SemanticToken) : List (Nat × Nat × Nat × Nat) :=
  decode_semantic_tokens_go 0 0 ss

/-! ## The reference index (src/reference.rs) -/

/-- `reference::Symbol`. -/
structure Symbol where
  line : Nat
  col : Nat
  length : Nat
deriving DecidableEq, Repr

instance : Inhabited Symbol := ⟨⟨0, 0, 0⟩⟩

/-- `Symbol::new`. -/
def Symbol.new (s : Span) : Symbol :=
  { line := s.low.line, col := s.low.column, length := s.len }

/-- `Symbol::is_inside`. -/
def Symbol.is_inside (s : Symbol) (line col : Nat) : Bool :=
  s.line == line && decide (s.col ≤ col) && decide (col ≤ s.col + s.length)

/-- `Symbol`'s `Ord`: lexicographic by `(line, col, length)` (strict part). -/
def Symbol.lt (a b : Symbol) : Bool :=
  a.line < b.line ||
    (a.line == b.line &&
      (a.col < b.col || (a.col == b.col && a.length < b.length)))

/-- One insertion step of a stable sort by `Symbol.lt`. -/
def insertSymbol (s : Symbol) : List Symbol → List Symbol
  | [] => [s]
  | u :: us => if Symbol.lt s u then s :: u :: us else u :: insertSymbol s us

/-- `symbol_seq.sort()` (stable, by the `Ord` above). -/
def sortSymbols (ss : List Symbol) : List Symbol :=
  ss.foldl (fun acc s => insertSymbol s acc) []

/-- The lookup of the `HashMap<Symbol, usize>` built by
`symbol_seq.iter().enumerate().map(|(i, symbol)| (*symbol, i)).collect()`:
repeated inserts keep the last, so a key maps to the largest index holding
it. -/
def lastIdxOf (seq : List Symbol) (s : Symbol) : Option Nat :=
  ((seq.enum.filter (fun p => p.2 = s)).getLast?).map Prod.fst

/-- The `HashMap<usize, Vec<usize>>` of `RefereceMap::references`, as an
association list in key-creation order. -/
abbrev IdxMap := List (Nat × List Nat)

/-- `references.entry(index).or_insert_with(Vec::new)` followed by pushing
`vs` in order. -/
def IdxMap.addMany (k : Nat) (vs : List Nat) : IdxMap → IdxMap
  | [] => [(k, vs)]
  | (k0, v) :: rest =>
      if k0 = k then (k0, v ++ vs) :: rest else (k0, v) :: IdxMap.addMany k vs rest

/-- `references.get(&k)`. -/
def IdxMap.lookup (k : Nat) : IdxMap → Option (List Nat)
  | [] => none
  | (k0, v) :: rest => if k0 = k then some v else IdxMap.lookup k rest

/-- The adjacency-building double loop of `RefereceMap::new`.  The source
`unwrap`s each map lookup; every looked-up symbol is in `symbol_seq` (a
permutation of exactly these symbols), so the `getD 0` default is never
taken. -/
def buildReferences (refs : List (List Span)) (seq : List Symbol) : IdxMap :=
  refs.foldl
    (fun m group =>
      group.enum.foldl
        (fun m p =>
          let index := (lastIdxOf seq (Symbol.new p.2)).getD 0
          let others := (group.enum.filter (fun q => q.1 ≠ p.1)).map
            (fun q => (lastIdxOf seq (Symbol.new q.2)).getD 0)
          IdxMap.addMany index others m)
        m)
    []

/-- `RefereceMap` (source spelling kept). -/
structure RefereceMap where
  symbol_seq : List Symbol
  references : IdxMap

/-- `RefereceMap::new`. -/
def RefereceMap.new (refs : List (List Span)) : RefereceMap :=
  let symbol_seq := refs.foldl (fun acc group => acc ++ group.map Symbol.new) []
  let symbol_seq := sortSymbols symbol_seq
  { symbol_seq := symbol_seq, references := buildReferences refs symbol_seq }

/-- The binary-search loop of `find` (src/reference.rs).  `low`/`high` are the
`usize` cursors; the `mid == 0` test guards the `mid - 1` underflow exactly as
in the source. -/
def find_loop (line col : Nat) (refs : List Symbol) (low high : Nat) : Option Nat :=
  if _h : low ≤ high then
    let mid := (low + high) / 2
    let mid_val := refs.getD mid default
    if mid_val.is_inside line col then some mid
    else if mid_val.line < line ∨ (mid_val.line = line ∧ mid_val.col < col) then
      find_loop line col refs (mid + 1) high
    else if mid = 0 then none
    else find_loop line col refs low (mid - 1)
  else none
termination_by high + 1 - low
decreasing_by all_goals simp_wf; all_goals omega

/-- `reference::find`. -/
def find (line col : Nat) (refs : List Symbol) : Option Nat :=
  if refs.isEmpty then none
  else find_loop line col refs 0 (refs.length - 1)

/-- `RefereceMap::query`. -/
def RefereceMap.query (rm : RefereceMap) (line col : Nat) : Option (List Symbol) := do
  let index ← find line col rm.symbol_seq
  let refs ← IdxMap.lookup index rm.references
  some (refs.map (fun i => rm.symbol_seq.getD i default))

/-- `RefereceMap::query_with_self`. -/
def RefereceMap.query_with_self (rm : RefereceMap) (line col : Nat) :
    Option (List Symbol) := do
  let index ← find line col rm.symbol_seq
  let refs ← IdxMap.lookup index rm.references
  some ((refs.map (fun i => rm.symbol_seq.getD i default)) ++
    [rm.symbol_seq.getD index default])

/-! ## Theorems: token delta-encoding (claim C9) -/

/-- The non-strict `(line, column)` order underlying `tokenLt`. -/
def tokenLeP (a b : Token) : Prop :=
  a.line < b.line ∨ (a.line = b.line ∧ a.col ≤ b.col)

theorem tokenLt_iff (a b : Token) :
    tokenLt a b = true ↔ a.line < b.line ∨ (a.line = b.line ∧ a.col < b.col) := by
  simp [tokenLt]

theorem tokenLeP_of_not_lt {a b : Token} (h : ¬ tokenLt a b = true) : tokenLeP b a := by
  rw [tokenLt_iff] at h
  unfold tokenLeP
  omega

theorem tokenLeP_of_lt {a b : Token} (h : tokenLt a b = true) : tokenLeP a b := by
  rw [tokenLt_iff] at h
  unfold tokenLeP
  omega

theorem tokenLeP_trans {a b c : Token} (h1 : tokenLeP a b) (h2 : tokenLeP b c) :
    tokenLeP a c := by
  unfold tokenLeP at h1 h2 ⊢
  omega

theorem insertToken_perm (t : Token) (l : List Token) :
    (insertToken t l).Perm (t :: l) := by
  induction l with
  | nil => simp [insertToken]
  | cons u us ih =>
      by_cases hlt : tokenLt t u = true
      · simp [insertToken, hlt]
      · simp only [insertToken, hlt, if_false]
        exact (ih.cons u).trans (List.Perm.swap t u us)

theorem mem_insertToken {w t : Token} {l : List Token} :
    w ∈ insertToken t l ↔ w = t ∨ w ∈ l := by
  rw [(insertToken_perm t l).mem_iff]
  simp

theorem insertToken_pairwise {t : Token} {l : List Token}
    (h : l.Pairwise tokenLeP) : (insertToken t l).Pairwise tokenLeP := by
  induction l with
  | nil => simp [insertToken]
  | cons u us ih =>
      rw [List.pairwise_cons] at h
      by_cases hlt : tokenLt t u = true
      · have hall : ∀ w ∈ u :: us, tokenLeP t w := by
          intro w hw
          rcases List.mem_cons.mp hw with hw | hw
          · exact hw ▸ tokenLeP_of_lt hlt
          · exact tokenLeP_trans (tokenLeP_of_lt hlt) (h.1 w hw)
        simp only [insertToken, hlt, if_true]
        exact List.pairwise_cons.mpr ⟨hall, List.pairwise_cons.mpr h⟩
      · simp only [insertToken, hlt, if_false]
        refine List.pairwise_cons.mpr ⟨?_, ih h.2⟩
        intro w hw
        rcases mem_insertToken.mp hw with hw | hw
        · exact hw ▸ tokenLeP_of_not_lt hlt
        · exact h.1 w hw

theorem sortTokens_go_pairwise (ts acc : List Token) (h : acc.Pairwise tokenLeP) :
    (ts.foldl (fun acc t => insertToken t acc) acc).Pairwise tokenLeP := by
  induction ts generalizing acc with
  | nil => simpa
  | cons t rest ih => exact ih _ (insertToken_pairwise h)

theorem sortTokens_pairwise (ts : List Token) : (sortTokens ts).Pairwise tokenLeP :=
  sortTokens_go_pairwise ts [] (by simp)

theorem sortTokens_go_perm (ts acc : List Token) :
    (ts.foldl (fun acc t => insertToken t acc) acc).Perm (acc ++ ts) := by
  induction ts generalizing acc with
  | nil => simp
  | cons t rest ih =>
      refine (ih (insertToken t acc)).trans ?_
      refine (((insertToken_perm t acc).append_right rest).trans ?_)
      simpa using (List.perm_middle (a := t)).symm

theorem sortTokens_perm (ts : List Token) : (sortTokens ts).Perm ts := by
  simpa using sortTokens_go_perm ts []

/-- The key-equality test used to state stability. -/
def tokenKeyEq (line col : Nat) (t : Token) : Bool :=
  t.line == line && t.col == col

theorem filter_insertToken (t : Token) (acc : List Token) (line col : Nat)
    (hs : acc.Pairwise tokenLeP) :
    (insertToken t acc).filter (tokenKeyEq line col) =
      if tokenKeyEq line col t then
        acc.filter (tokenKeyEq line col) ++ [t]
      else acc.filter (tokenKeyEq line col) := by
  induction acc with
  | nil => by_cases ht : tokenKeyEq line col t = true <;> simp [insertToken, ht]
  | cons u us ih =>
      rw [List.pairwise_cons] at hs
      by_cases hlt : tokenLt t u = true
      · -- t lands in front of u; everything from u on has a strictly larger key
        have hnone : tokenKeyEq line col t = true →
            ∀ w ∈ u :: us, ¬ tokenKeyEq line col w = true := by
          intro ht w hw
          have hlt' := (tokenLt_iff t u).mp hlt
          simp only [tokenKeyEq, Bool.and_eq_true, beq_iff_eq] at ht ⊢
          rcases List.mem_cons.mp hw with hw | hw
          · subst hw
            omega
          · have huw := hs.1 w hw
            unfold tokenLeP at huw
            omega
        simp only [insertToken, hlt, if_true]
        by_cases ht : tokenKeyEq line col t = true
        · have h2 : (u :: us).filter (tokenKeyEq line col) = [] := by
            rw [List.filter_eq_nil_iff]
            exact hnone ht
          rw [List.filter_cons_of_pos ht, h2]
          simp [ht]
        · rw [List.filter_cons_of_neg ht]
          simp [ht]
      · simp only [insertToken, hlt, Bool.false_eq_true, if_false]
        by_cases hu : tokenKeyEq line col u = true
        · rw [List.filter_cons_of_pos hu, List.filter_cons_of_pos hu, ih hs.2]
          by_cases ht : tokenKeyEq line col t = true <;> simp [ht]
        · rw [List.filter_cons_of_neg hu, List.filter_cons_of_neg hu, ih hs.2]

theorem filter_sortTokens_go (ts acc : List Token) (line col : Nat)
    (hs : acc.Pairwise tokenLeP) :
    (ts.foldl (fun acc t => insertToken t acc) acc).filter (tokenKeyEq line col) =
      acc.filter (tokenKeyEq line col) ++ ts.filter (tokenKeyEq line col) := by
  induction ts generalizing acc with
  | nil => simp
  | cons t rest ih =>
      rw [List.foldl_cons, ih _ (insertToken_pairwise hs), filter_insertToken _ _ _ _ hs]
      by_cases ht : tokenKeyEq line col t = true
      · rw [if_pos ht, List.filter_cons_of_pos ht]
        simp
      · rw [if_neg ht, List.filter_cons_of_neg ht]

/-- Stability of the sort: the equal-key tokens keep their original order. -/
theorem filter_sortTokens (ts : List Token) (line col : Nat) :
    (sortTokens ts).filter (tokenKeyEq line col) = ts.filter (tokenKeyEq line col) := by
  simpa using filter_sortTokens_go ts [] line col (by simp)

theorem decode_encode_go (l : List Token) (ll ls : Nat)
    (h : (Token.mk 0 ll ls 0 :: l).Pairwise tokenLeP) :
    decode_semantic_tokens_go ll ls (to_semantic_tokens_go ll ls l) =
      l.map (fun t => (t.line, t.col, t.length, t.token_type)) := by
  induction l generalizing ll ls with
  | nil => rfl
  | cons t rest ih =>
      rw [List.pairwise_cons] at h
      have hb : ll < t.line ∨ (t.line = ll ∧ ls ≤ t.col) := by
        have hx := h.1 t (by simp)
        simp only [tokenLeP] at hx
        omega
      have hLine : ll + (t.line - ll) = t.line := by omega
      have hCol :
          (if (t.line - ll) = 0 then ls + (if (t.line - ll) = 0 then t.col - ls else t.col)
            else (if (t.line - ll) = 0 then t.col - ls else t.col)) = t.col := by
        by_cases h0 : t.line - ll = 0
        · simp only [h0, if_true]
          omega
        · simp [h0]
      simp only [to_semantic_tokens_go, decode_semantic_tokens_go, List.map_cons]
      rw [hLine, hCol]
      refine congrArg _ ?_
      apply ih
      refine List.pairwise_cons.mpr ⟨?_, (List.pairwise_cons.mp h.2).2⟩
      intro w hw
      exact (List.pairwise_cons.mp h.2).1 w hw

/-- C9 (algebraic_relational): `to_semantic_tokens` stably sorts the flat
token list ascending by `(line, column)` and delta-encodes it so that
decoding the deltas in order — accumulating lines and resetting the column
base on each line change — reproduces exactly the sorted `(line, column)`
sequence, each entry keeping its own length and category: the sorted list is
ascending, is a permutation of the input keeping equal-key runs in their
original order, and decoding the encoder's output recovers it entry for
entry. -/
theorem to_semantic_tokens_round_trip (ts : List Token) :
    (sortTokens ts).Pairwise tokenLeP ∧
    (sortTokens ts).Perm ts ∧
    (∀ line col, (sortTokens ts).filter (tokenKeyEq line col) =
      ts.filter (tokenKeyEq line col)) ∧
    decode_semantic_tokens (to_semantic_tokens ts) =
      (sortTokens ts).map (fun t => (t.line, t.col, t.length, t.token_type)) := by
  refine ⟨sortTokens_pairwise ts, sortTokens_perm ts,
    fun line col => filter_sortTokens ts line col, ?_⟩
  apply decode_encode_go
  refine List.pairwise_cons.mpr ⟨?_, sortTokens_pairwise ts⟩
  intro w _
  simp only [tokenLeP]
  omega

/-! ## Theorems: terminal resolution of plain links (claim C1) -/

instance : Inhabited Pos := ⟨⟨0, 0⟩⟩
instance : Inhabited Span := ⟨⟨⟨0, 0⟩, ⟨0, 0⟩, 0⟩⟩

/-- The diagnostics terminal resolution owes one link name, per the spec's
case analysis on its occurrence count: none for 0 or 2 occurrences, one
"Free link" for a single occurrence, and one "Link occurs more than twice"
per occurrence from the third onward. -/
def terminalLinkDiags (uri : String) : List Span → List Diagnostic
  | [] => []
  | [a] => [freeLinkDiag a]
  | [_, _] => []
  | a :: b :: rest => rest.map (multiOccurDiag uri a b)

theorem filter_links_top_entry_spec (st : AState) (occ : List Span) :
    (filter_links_top_entry st occ).uri = st.uri ∧
    (filter_links_top_entry st occ).semantic_tokens = st.semantic_tokens ∧
    (filter_links_top_entry st occ).symbols = st.symbols ∧
    (filter_links_top_entry st occ).diagnostics =
      st.diagnostics ++ terminalLinkDiags st.uri occ ∧
    (filter_links_top_entry st occ).refs =
      st.refs ++ (if occ.length == 2 then [occ] else []) := by
  match occ with
  | [] => simp [filter_links_top_entry, terminalLinkDiags]
  | [a] => simp [filter_links_top_entry, terminalLinkDiags]
  | [a, b] => simp [filter_links_top_entry, terminalLinkDiags]
  | a :: b :: c :: rest =>
      simp [filter_links_top_entry, terminalLinkDiags, report_multi_occur]

theorem filter_links_top_acc (links : OccMap) (st : AState) :
    (filter_links_top st links).uri = st.uri ∧
    (filter_links_top st links).semantic_tokens = st.semantic_tokens ∧
    (filter_links_top st links).symbols = st.symbols ∧
    (filter_links_top st links).diagnostics =
      st.diagnostics ++ links.flatMap (fun e => terminalLinkDiags st.uri e.2) ∧
    (filter_links_top st links).refs =
      st.refs ++ (links.filter (fun e => e.2.length == 2)).map (fun e => e.2) := by
  induction links generalizing st with
  | nil => simp [filter_links_top]
  | cons e rest ih =>
      obtain ⟨h1, h2, h3, h4, h5⟩ := filter_links_top_entry_spec st e.2
      have hstep : filter_links_top st (e :: rest) =
          filter_links_top (filter_links_top_entry st e.2) rest := rfl
      obtain ⟨g1, g2, g3, g4, g5⟩ := ih (filter_links_top_entry st e.2)
      rw [hstep]
      refine ⟨g1.trans h1, g2.trans h2, g3.trans h3, ?_, ?_⟩
      · rw [g4, h4, h1]
        simp
      · rw [g5, h5]
        by_cases hlen : e.2.length == 2
        · simp [List.filter_cons, hlen]
        · simp only [List.filter_cons]
          simp [hlen]

/-- C1 (functional_correctness): terminal resolution (`filter_links_top`,
run at the program's outermost boundary and at a rule's boundary) treats
every plain-link name in the occurrence map by count: 0 occurrences produce
nothing, 1 produces exactly one "Free link" diagnostic at that span, 2
produce exactly one LinkGroup of the two spans and no diagnostic, and
N ≥ 3 produce exactly N − 2 "Link occurs more than twice" diagnostics, one
per occurrence from the third onward, each related to the first and second
occurrences labeled "First occurrence" and "Second occurrence". -/
theorem filter_links_top_terminal_resolution (st : AState) (links : OccMap) :
    (filter_links_top st links).diagnostics =
      st.diagnostics ++ links.flatMap (fun e => terminalLinkDiags st.uri e.2) ∧
    (filter_links_top st links).refs =
      st.refs ++ (links.filter (fun e => e.2.length == 2)).map (fun e => e.2) ∧
    terminalLinkDiags st.uri [] = [] ∧
    (∀ a, terminalLinkDiags st.uri [a] = [freeLinkDiag a]) ∧
    (∀ a b, terminalLinkDiags st.uri [a, b] = []) ∧
    (∀ a b c rest,
      terminalLinkDiags st.uri (a :: b :: c :: rest) =
        (c :: rest).map (multiOccurDiag st.uri a b) ∧
      (terminalLinkDiags st.uri (a :: b :: c :: rest)).length =
        (a :: b :: c :: rest).length - 2) ∧
    (∀ occ d, 3 ≤ occ.length → d ∈ terminalLinkDiags st.uri occ →
      d.message = "Link occurs more than twice" ∧
      d.severity = some .error ∧
      d.related_information = some
        [⟨⟨st.uri, span_to_range (occ.getD 0 default)⟩, "First occurrence"⟩,
         ⟨⟨st.uri, span_to_range (occ.getD 1 default)⟩, "Second occurrence"⟩]) := by
  obtain ⟨_, _, _, h4, h5⟩ := filter_links_top_acc links st
  refine ⟨h4, h5, rfl, fun a => rfl, fun a b => rfl, ?_, ?_⟩
  · intro a b c rest
    refine ⟨rfl, ?_⟩
    simp [terminalLinkDiags]
  · intro occ d hlen hd
    match occ with
    | a :: b :: c :: rest =>
        simp only [terminalLinkDiags, List.mem_map] at hd
        obtain ⟨sp, _, hsp⟩ := hd
        subst hsp
        exact ⟨rfl, rfl, rfl⟩

/-- Witness for `filter_links_top_terminal_resolution`: a concrete state and
map with one name of each occurrence count, with the hypotheses of the last
conjunct discharged at the three-occurrence entry. -/
theorem filter_links_top_terminal_resolution_witness :
    (let s1 : Span := ⟨⟨0, 0⟩, ⟨0, 1⟩, 1⟩
     let s2 : Span := ⟨⟨0, 2⟩, ⟨0, 3⟩, 1⟩
     let s3 : Span := ⟨⟨0, 4⟩, ⟨0, 5⟩, 1⟩
     let st : AState := ⟨"file:///a.lmn", [], [], [], []⟩
     let links : OccMap := [("x", [s1]), ("y", [s1, s2]), ("z", [s1, s2, s3])]
     (filter_links_top st links).diagnostics =
        [freeLinkDiag s1, multiOccurDiag "file:///a.lmn" s1 s2 s3] ∧
     (filter_links_top st links).refs = [[s1, s2]] ∧
     (multiOccurDiag "file:///a.lmn" s1 s2 s3).message = "Link occurs more than twice" ∧
     (multiOccurDiag "file:///a.lmn" s1 s2 s3).related_information = some
        [⟨⟨"file:///a.lmn", span_to_range s1⟩, "First occurrence"⟩,
         ⟨⟨"file:///a.lmn", span_to_range s2⟩, "Second occurrence"⟩]) := by
  have h := filter_links_top_terminal_resolution
    ⟨"file:///a.lmn", [], [], [], []⟩
    [("x", [⟨⟨0, 0⟩, ⟨0, 1⟩, 1⟩]),
     ("y", [⟨⟨0, 0⟩, ⟨0, 1⟩, 1⟩, ⟨⟨0, 2⟩, ⟨0, 3⟩, 1⟩]),
     ("z", [⟨⟨0, 0⟩, ⟨0, 1⟩, 1⟩, ⟨⟨0, 2⟩, ⟨0, 3⟩, 1⟩, ⟨⟨0, 4⟩, ⟨0, 5⟩, 1⟩])]
  obtain ⟨h1, h2, _, _, _, _, h7⟩ := h
  have hm := h7 [⟨⟨0, 0⟩, ⟨0, 1⟩, 1⟩, ⟨⟨0, 2⟩, ⟨0, 3⟩, 1⟩, ⟨⟨0, 4⟩, ⟨0, 5⟩, 1⟩]
    (multiOccurDiag "file:///a.lmn" ⟨⟨0, 0⟩, ⟨0, 1⟩, 1⟩ ⟨⟨0, 2⟩, ⟨0, 3⟩, 1⟩
      ⟨⟨0, 4⟩, ⟨0, 5⟩, 1⟩)
    (by decide) (by simp [terminalLinkDiags])
  refine ⟨?_, ?_, hm.1, ?_⟩
  · rw [h1]
    simp [terminalLinkDiags]
  · rw [h2]
    simp
  · simpa using hm.2.2

/-! ## Theorems: inner resolution (claim C2) -/

/-- The multi-occurrence diagnostics owed a list of occurrences: one per
occurrence from the third onward (none for fewer than three). -/
def multiDiagsOf (uri : String) : List Span → List Diagnostic
  | a :: b :: rest => rest.map (multiOccurDiag uri a b)
  | _ => []

theorem report_multi_occur_eq (st : AState) (occ : List Span) :
    report_multi_occur st occ =
      { st with diagnostics := st.diagnostics ++ multiDiagsOf st.uri occ } := by
  match occ with
  | [] => simp [report_multi_occur, multiDiagsOf]
  | [a] => simp [report_multi_occur, multiDiagsOf]
  | a :: b :: rest => rfl

theorem filter_links_inner_acc (links : OccMap) (st : AState) :
    (filter_links_inner st links).1.uri = st.uri ∧
    (filter_links_inner st links).1.semantic_tokens = st.semantic_tokens ∧
    (filter_links_inner st links).1.symbols = st.symbols ∧
    (filter_links_inner st links).2 =
      links.filter (fun e => decide (e.2.length ≤ 1)) ∧
    (filter_links_inner st links).1.refs =
      st.refs ++ (links.filter (fun e => e.2.length == 2)).map (fun e => e.2) ∧
    (filter_links_inner st links).1.diagnostics =
      st.diagnostics ++
        (links.filter (fun e => decide (3 ≤ e.2.length))).flatMap
          (fun e => multiDiagsOf st.uri e.2) := by
  induction links generalizing st with
  | nil => simp [filter_links_inner]
  | cons e rest ih =>
      obtain ⟨k, occ⟩ := e
      match occ with
      | [] =>
          obtain ⟨g1, g2, g3, g4, g5, g6⟩ := ih st
          exact ⟨g1, g2, g3, by simp [filter_links_inner, g4],
            by simp [filter_links_inner, g5], by simp [filter_links_inner, g6]⟩
      | [a] =>
          obtain ⟨g1, g2, g3, g4, g5, g6⟩ := ih st
          exact ⟨g1, g2, g3, by simp [filter_links_inner, g4],
            by simp [filter_links_inner, g5], by simp [filter_links_inner, g6]⟩
      | [a, b] =>
          obtain ⟨g1, g2, g3, g4, g5, g6⟩ := ih { st with refs := st.refs ++ [[a, b]] }
          refine ⟨g1, g2, g3, by simp [filter_links_inner, g4], ?_, ?_⟩
          · show (filter_links_inner { st with refs := st.refs ++ [[a, b]] } rest).1.refs = _
            rw [g5]
            simp
          · show (filter_links_inner { st with refs := st.refs ++ [[a, b]] } rest).1.diagnostics = _
            rw [g6]
            simp
      | a :: b :: c :: tail =>
          obtain ⟨g1, g2, g3, g4, g5, g6⟩ :=
            ih (report_multi_occur st (a :: b :: c :: tail))
          have c1 : (decide ((a :: b :: c :: tail).length ≤ 1)) = false := by
            simp
          have c2 : (((a :: b :: c :: tail).length == 2)) = false := by
            simp
          have c3 : (decide (3 ≤ (a :: b :: c :: tail).length)) = true := by
            simp
          have hu : (report_multi_occur st (a :: b :: c :: tail)).uri = st.uri := rfl
          have hst : (report_multi_occur st (a :: b :: c :: tail)).semantic_tokens =
              st.semantic_tokens := rfl
          have hsy : (report_multi_occur st (a :: b :: c :: tail)).symbols =
              st.symbols := rfl
          have hrf : (report_multi_occur st (a :: b :: c :: tail)).refs = st.refs := rfl
          have hdg : (report_multi_occur st (a :: b :: c :: tail)).diagnostics =
              st.diagnostics ++ multiDiagsOf st.uri (a :: b :: c :: tail) := rfl
          rw [hu] at g1 g6
          rw [hst] at g2
          rw [hsy] at g3
          rw [hrf] at g5
          rw [hdg] at g6
          refine ⟨g1, g2, g3, ?_, ?_, ?_⟩
          · show (filter_links_inner
                (report_multi_occur st (a :: b :: c :: tail)) rest).2 = _
            rw [g4, List.filter_cons, c1]
            simp
          · show (filter_links_inner
                (report_multi_occur st (a :: b :: c :: tail)) rest).1.refs = _
            rw [g5, List.filter_cons, c2]
            simp
          · show (filter_links_inner
                (report_multi_occur st (a :: b :: c :: tail)) rest).1.diagnostics = _
            rw [g6, List.filter_cons, c3]
            simp

theorem analyze_rules_occurrences (rs : List RuleNode) (st : AState)
    (acc : AnalysisResult) :
    (analyze_rules st rs acc).2.link_occurrences = acc.link_occurrences ∧
    (analyze_rules st rs acc).2.hyperlink_occurrences = acc.hyperlink_occurrences := by
  induction rs generalizing st acc with
  | nil => simp [analyze_rules]
  | cons r rest ih =>
      rw [analyze_rules]
      exact ih _ _

/-- C2 (functional_correctness): inner resolution (`filter_links_inner`, run
at a nested-membrane boundary and after merging a rule\x27s head with its
propagation) removes each plain-link name with exactly 2 occurrences and
emits one LinkGroup of its two spans, leaves names with 0 or 1 occurrences
in the map unchanged so they propagate outward, removes names with ≥ 3
occurrences emitting the multi-occurrence diagnostics, and never modifies a
hyperlink occurrence map: the membrane arm of the traversal passes only the
plain-link map through it, its hyperlink map being exactly the one collected
from the membrane\x27s process lists. -/
theorem filter_links_inner_inner_resolution (st : AState) (links : OccMap) :
    (filter_links_inner st links).2 =
      links.filter (fun e => decide (e.2.length ≤ 1)) ∧
    (filter_links_inner st links).1.refs =
      st.refs ++ (links.filter (fun e => e.2.length == 2)).map (fun e => e.2) ∧
    (filter_links_inner st links).1.diagnostics =
      st.diagnostics ++
        (links.filter (fun e => decide (3 ≤ e.2.length))).flatMap
          (fun e => multiDiagsOf st.uri e.2) ∧
    (∀ a b, multiDiagsOf st.uri [a, b] = []) ∧
    (∀ name nameSpan pls rules span tl,
      (analyze_process st tl (.membrane name nameSpan pls rules span)).2.hyperlink_occurrences =
        (analyze_process_lists st pls AnalysisResult.empty).2.hyperlink_occurrences) := by
  obtain ⟨_, _, _, h4, h5, h6⟩ := filter_links_inner_acc links st
  refine ⟨h4, h5, h6, fun a b => rfl, ?_⟩
  intro name nameSpan pls rules span tl
  rw [analyze_process]
  exact (analyze_rules_occurrences rules _ _).2

/-- Witness for `filter_links_inner_inner_resolution` at a concrete state,
map and membrane node. -/
theorem filter_links_inner_inner_resolution_witness :
    (let s1 : Span := ⟨⟨0, 0⟩, ⟨0, 1⟩, 1⟩
     let s2 : Span := ⟨⟨0, 2⟩, ⟨0, 3⟩, 1⟩
     let s3 : Span := ⟨⟨0, 4⟩, ⟨0, 5⟩, 1⟩
     let st : AState := ⟨"file:///a.lmn", [], [], [], []⟩
     let links : OccMap := [("x", [s1]), ("y", [s1, s2]), ("z", [s1, s2, s3])]
     (filter_links_inner st links).2 = [("x", [s1])] ∧
     (filter_links_inner st links).1.refs = [[s1, s2]] ∧
     (filter_links_inner st links).1.diagnostics =
        [multiOccurDiag "file:///a.lmn" s1 s2 s3] ∧
     (analyze_process st false
        (.membrane "m" s1 [.mk [.link "H" true s2] s1] [] s1)).2.hyperlink_occurrences =
       (analyze_process_lists st [.mk [.link "H" true s2] s1]
          AnalysisResult.empty).2.hyperlink_occurrences) := by
  have h := filter_links_inner_inner_resolution
    ⟨"file:///a.lmn", [], [], [], []⟩
    [("x", [⟨⟨0, 0⟩, ⟨0, 1⟩, 1⟩]),
     ("y", [⟨⟨0, 0⟩, ⟨0, 1⟩, 1⟩, ⟨⟨0, 2⟩, ⟨0, 3⟩, 1⟩]),
     ("z", [⟨⟨0, 0⟩, ⟨0, 1⟩, 1⟩, ⟨⟨0, 2⟩, ⟨0, 3⟩, 1⟩, ⟨⟨0, 4⟩, ⟨0, 5⟩, 1⟩])]
  obtain ⟨h1, h2, h3, _, h5⟩ := h
  refine ⟨?_, ?_, ?_, h5 "m" ⟨⟨0, 0⟩, ⟨0, 1⟩, 1⟩
    [.mk [.link "H" true ⟨⟨0, 2⟩, ⟨0, 3⟩, 1⟩] ⟨⟨0, 0⟩, ⟨0, 1⟩, 1⟩] []
    ⟨⟨0, 0⟩, ⟨0, 1⟩, 1⟩ false⟩
  · rw [h1]
    simp
  · rw [h2]
    simp
  · rw [h3]
    simp [multiDiagsOf]


/-! ## The traversal state invariant

`StateDelta old new tops` says the traversal step from state `old` to state
`new` only appended diagnostics — all with ERROR severity, those with message
"Link at top level" being exactly one per span in `tops`, in order — only
appended reference groups of exactly two spans, and kept the uri.  It is
proved for every traversal function by the mutual functional induction below
and underlies the claims about diagnostics severity, top-level links and
LinkGroup sizes. -/

/-- Does a diagnostic carry the top-level-link message? -/
def isTopLevelLinkMsg (d : Diagnostic) : Bool :=
  d.message == "Link at top level"

/-- The spans of the link nodes sitting directly in a process position. -/
def topLinkSpans1 : ProcessNode → List Span
  | .link _ _ sp => [sp]
  | _ => []

/-- The spans of the link nodes sitting directly in a process list. -/
def topLinkSpansPL : ProcessList → List Span
  | .mk ps _ => ps.flatMap topLinkSpans1

def StateDelta (old new : AState) (tops : List Span) : Prop :=
  (∃ extra, new.diagnostics = old.diagnostics ++ extra ∧
     (∀ d ∈ extra, d.severity = some DiagnosticSeverity.error) ∧
     extra.filter isTopLevelLinkMsg = tops.map linkAtTopLevelDiag) ∧
  (∃ groups, new.refs = old.refs ++ groups ∧ ∀ g ∈ groups, g.length = 2) ∧
  new.uri = old.uri

theorem StateDelta.rfl (a : AState) : StateDelta a a [] :=
  ⟨⟨[], by simp, by simp, by simp⟩, ⟨[], by simp, by simp⟩, Eq.refl _⟩

theorem StateDelta.trans {a b c : AState} {t1 t2 : List Span}
    (h1 : StateDelta a b t1) (h2 : StateDelta b c t2) :
    StateDelta a c (t1 ++ t2) := by
  obtain ⟨⟨e1, hd1, hs1, hf1⟩, ⟨g1, hr1, hg1⟩, hu1⟩ := h1
  obtain ⟨⟨e2, hd2, hs2, hf2⟩, ⟨g2, hr2, hg2⟩, hu2⟩ := h2
  refine ⟨⟨e1 ++ e2, ?_, ?_, ?_⟩, ⟨g1 ++ g2, ?_, ?_⟩, hu2.trans hu1⟩
  · rw [hd2, hd1, List.append_assoc]
  · intro d hd
    rcases List.mem_append.mp hd with hd | hd
    · exact hs1 d hd
    · exact hs2 d hd
  · rw [List.filter_append, hf1, hf2, List.map_append]
  · rw [hr2, hr1, List.append_assoc]
  · intro g hg
    rcases List.mem_append.mp hg with hg | hg
    · exact hg1 g hg
    · exact hg2 g hg

theorem mem_terminalLinkDiags {uri : String} {occ : List Span} {d : Diagnostic}
    (hd : d ∈ terminalLinkDiags uri occ) :
    d.severity = some DiagnosticSeverity.error ∧ isTopLevelLinkMsg d = false := by
  match occ with
  | [] => simp [terminalLinkDiags] at hd
  | [a] =>
      simp [terminalLinkDiags] at hd
      subst hd
      exact ⟨Eq.refl _, by simp [isTopLevelLinkMsg, freeLinkDiag]⟩
  | [a, b] => simp [terminalLinkDiags] at hd
  | a :: b :: c :: rest =>
      simp only [terminalLinkDiags, List.mem_map] at hd
      obtain ⟨sp, _, hsp⟩ := hd
      subst hsp
      exact ⟨Eq.refl _, by simp [isTopLevelLinkMsg, multiOccurDiag]⟩

theorem mem_multiDiagsOf {uri : String} {occ : List Span} {d : Diagnostic}
    (hd : d ∈ multiDiagsOf uri occ) :
    d.severity = some DiagnosticSeverity.error ∧ isTopLevelLinkMsg d = false := by
  match occ with
  | [] => simp [multiDiagsOf] at hd
  | [a] => simp [multiDiagsOf] at hd
  | a :: b :: rest =>
      simp only [multiDiagsOf, List.mem_map] at hd
      obtain ⟨sp, _, hsp⟩ := hd
      subst hsp
      exact ⟨Eq.refl _, by simp [isTopLevelLinkMsg, multiOccurDiag]⟩

theorem StateDelta.filter_inner (st : AState) (m : OccMap) :
    StateDelta st (filter_links_inner st m).1 [] := by
  obtain ⟨h1, _, _, _, h5, h6⟩ := filter_links_inner_acc m st
  refine ⟨⟨_, h6, ?_, ?_⟩, ⟨_, h5, ?_⟩, h1⟩
  · intro d hd
    simp only [List.mem_flatMap] at hd
    obtain ⟨e, _, hde⟩ := hd
    exact (mem_multiDiagsOf hde).1
  · rw [List.map_nil, List.filter_eq_nil_iff]
    intro d hd
    simp only [List.mem_flatMap] at hd
    obtain ⟨e, _, hde⟩ := hd
    simp [(mem_multiDiagsOf hde).2]
  · intro g hg
    simp only [List.mem_map, List.mem_filter] at hg
    obtain ⟨e, ⟨_, he⟩, hge⟩ := hg
    subst hge
    simpa using he

theorem StateDelta.filter_top (st : AState) (m : OccMap) :
    StateDelta st (filter_links_top st m) [] := by
  obtain ⟨h1, _, _, h4, h5⟩ := filter_links_top_acc m st
  refine ⟨⟨_, h4, ?_, ?_⟩, ⟨_, h5, ?_⟩, h1⟩
  · intro d hd
    simp only [List.mem_flatMap] at hd
    obtain ⟨e, _, hde⟩ := hd
    exact (mem_terminalLinkDiags hde).1
  · rw [List.map_nil, List.filter_eq_nil_iff]
    intro d hd
    simp only [List.mem_flatMap] at hd
    obtain ⟨e, _, hde⟩ := hd
    simp [(mem_terminalLinkDiags hde).2]
  · intro g hg
    simp only [List.mem_map, List.mem_filter] at hg
    obtain ⟨e, ⟨_, he⟩, hge⟩ := hg
    subst hge
    simpa using he

theorem StateDelta.add_symbol (st : AState) (sp : Span) (tt : Nat) :
    StateDelta st (add_symbol st sp tt) [] :=
  ⟨⟨[], by simp [LS.add_symbol], by simp, by simp⟩,
   ⟨[], by simp [LS.add_symbol], by simp⟩, Eq.refl _⟩


theorem StateDelta.cast {a b : AState} {t t2 : List Span}
    (h : StateDelta a b t) (ht : t = t2) : StateDelta a b t2 := ht ▸ h

/-- The traversal invariant, proved for all six mutually recursive traversal
functions at once by functional induction. -/
theorem traversal_delta :
    (∀ (st : AState) (tl : Bool) (p : ProcessNode),
      StateDelta st (analyze_process st tl p).1 (if tl then topLinkSpans1 p else [])) ∧
    (∀ (st : AState) (tl : Bool) (ps : List ProcessNode) (acc : AnalysisResult),
      StateDelta st (analyze_processes st tl ps acc).1
        (if tl then ps.flatMap topLinkSpans1 else [])) ∧
    (∀ (st : AState) (rs : List RuleNode) (acc : AnalysisResult),
      StateDelta st (analyze_rules st rs acc).1 []) ∧
    (∀ (st : AState) (r : RuleNode), StateDelta st (analyze_rule st r).1 []) ∧
    (∀ (st : AState) (tl : Bool) (pl : ProcessList),
      StateDelta st (analyze_process_list st tl pl).1
        (if tl then topLinkSpansPL pl else [])) ∧
    (∀ (st : AState) (pls : List ProcessList) (acc : AnalysisResult),
      StateDelta st (analyze_process_lists st pls acc).1 []) := by
  apply analyze_process.mutual_induct
  case _ => -- membrane
    intro st tl name nameSpan pls rules span st3 result eq1 st2 links eq2
    intro resultL st4 result1 eq3 ih6 ih3
    have d1 : StateDelta st st3 [] := by
      have h := ih6
      rw [eq1] at h
      exact h
    have d2 : StateDelta st3 st2 [] := by
      have h := StateDelta.filter_inner st3 result.link_occurrences
      rw [eq2] at h
      exact h
    have d3 : StateDelta st2 st4 [] := by
      have h := ih3
      rw [eq3] at h
      exact h
    have d4 := StateDelta.add_symbol st4 nameSpan MEMBRANE_LEGEND_TYPE
    have dall := ((d1.trans d2).trans d3).trans d4
    have hval : (analyze_process st tl
        (ProcessNode.membrane name nameSpan pls rules span)).1 =
        add_symbol st4 nameSpan MEMBRANE_LEGEND_TYPE := by
      simp only [analyze_process, eq1, eq2, eq3]
    rw [hval]
    refine dall.cast ?_
    cases tl <;> simp [topLinkSpans1]
  case _ => -- atom
    intro st tl name nameSpan args span st3 result eq1 ih2
    have d1 : StateDelta st st3 [] := by
      have h := ih2
      rw [eq1] at h
      exact h
    have hval : (analyze_process st tl (ProcessNode.atom name nameSpan args span)).1 =
        add_symbol st3 nameSpan (atom_token_type name) := by
      simp only [analyze_process, eq1]
    rw [hval]
    refine (d1.trans (StateDelta.add_symbol st3 nameSpan _)).cast ?_
    cases tl <;> simp [topLinkSpans1]
  case _ => -- link at top level
    intro st name hyperlink span
    have hval : (analyze_process st true (ProcessNode.link name hyperlink span)).1 =
        { st with diagnostics := st.diagnostics ++ [linkAtTopLevelDiag span] } := by
      simp [analyze_process]
    rw [hval]
    refine ⟨⟨[linkAtTopLevelDiag span], by simp, ?_, ?_⟩, ⟨[], by simp, by simp⟩, Eq.refl _⟩
    · intro d hd
      simp at hd
      subst hd
      rfl
    · simp [topLinkSpans1, isTopLevelLinkMsg, linkAtTopLevelDiag]
  case _ => -- hyperlink occurrence, not top level
    intro st tl name span htl
    have htl2 : tl = false := by
      cases tl
      · rfl
      · exact absurd rfl htl
    subst htl2
    have hval : (analyze_process st false (ProcessNode.link name true span)).1 =
        add_symbol st span HYPERLINK_LEGEND_TYPE := by
      simp [analyze_process]
    rw [hval]
    exact (StateDelta.add_symbol st span HYPERLINK_LEGEND_TYPE).cast (by simp)
  case _ => -- plain link occurrence, not top level
    intro st tl name hyperlink span htl hhl
    have htl2 : tl = false := by
      cases tl
      · rfl
      · exact absurd rfl htl
    have hhl2 : hyperlink = false := by
      cases hyperlink
      · rfl
      · exact absurd rfl hhl
    subst htl2
    subst hhl2
    have hval : (analyze_process st false (ProcessNode.link name false span)).1 =
        add_symbol st span LINK_LEGEND_TYPE := by
      simp [analyze_process]
    rw [hval]
    exact (StateDelta.add_symbol st span LINK_LEGEND_TYPE).cast (by simp)
  case _ => -- context
    intro st tl span
    have hval : (analyze_process st tl (ProcessNode.context span)).1 =
        add_symbol st span CONTEXT_LEGEND_TYPE := by
      simp [analyze_process]
    rw [hval]
    refine (StateDelta.add_symbol st span CONTEXT_LEGEND_TYPE).cast ?_
    cases tl <;> simp [topLinkSpans1]
  case _ => -- processes, nil
    intro st tl acc
    have hval : (analyze_processes st tl [] acc).1 = st := by
      simp [analyze_processes]
    rw [hval]
    exact (StateDelta.rfl st).cast (by cases tl <;> simp)
  case _ => -- processes, cons
    intro st tl acc p rest st3 result eq1 ih1 ih2
    have d1 : StateDelta st st3 (if tl then topLinkSpans1 p else []) := by
      have h := ih1
      rw [eq1] at h
      exact h
    have hval : (analyze_processes st tl (p :: rest) acc).1 =
        (analyze_processes st3 tl rest (acc.extend result)).1 := by
      simp only [analyze_processes, eq1]
    rw [hval]
    refine (d1.trans ih2).cast ?_
    cases tl <;> simp
  case _ => -- rules, nil
    intro st acc
    have hval : (analyze_rules st [] acc).1 = st := by
      simp [analyze_rules]
    rw [hval]
    exact StateDelta.rfl st
  case _ => -- rules, cons
    intro st acc r rest st1 rr eq1 ih4 ih3
    have d1 : StateDelta st st1 [] := by
      have h := ih4
      rw [eq1] at h
      exact h
    have hval : (analyze_rules st (r :: rest) acc).1 =
        (analyze_rules st1 rest (acc.extend_rules rr)).1 := by
      simp only [analyze_rules, eq1]
    rw [hval]
    exact (d1.trans ih3).cast (by simp)
  case _ => -- rule
    intro st name nameSpan head propagation _guard body span
    intro st0 st3 result eq1 st31 result1 eq2 st2 links eq3
    intro resultL st32 result2 eq4 ih_head ih_prop ih_body
    clear eq4
    have d0 : StateDelta st st0 [] := by
      refine ⟨⟨[], ?_, by simp, by simp⟩, ⟨[], ?_, by simp⟩, ?_⟩
      · unfold st0
        split <;> simp
      · unfold st0
        split <;> simp
      · unfold st0
        split <;> simp
    have d1 : StateDelta st0 st3 [] := by
      have h := ih_head
      rw [eq1] at h
      exact h.cast (by simp)
    have eq1a : analyze_process_list
        (if nameSpan.len ≠ 0 then
          { st with semantic_tokens := st.semantic_tokens ++
              [{ token_type := RULE_LEGEND_TYPE, line := nameSpan.low.line,
                 col := nameSpan.low.column, length := nameSpan.len }] }
         else st) false head = (st3, result) := eq1
    rcases propagation with _ | p
    · dsimp only at eq2 ih_prop
      injection eq2 with h1 h2
      subst h1
      subst h2
      have d3 : StateDelta st3 st2 [] := by
        have h := StateDelta.filter_inner st3 result.link_occurrences
        rw [eq3] at h
        exact h
      rcases body with _ | b
      · simp only [analyze_rule]
        rw [eq1a]
        dsimp only
        rw [eq3]
        dsimp only
        exact (((d0.trans d1).trans d3).trans
          (StateDelta.filter_top _ _)).cast (by simp)
      · dsimp only at ih_body
        rcases hb : analyze_process_list st2 false b with ⟨stb, rb⟩
        rw [hb] at ih_body
        have d4 : StateDelta st2 stb [] := ih_body.cast (by simp)
        simp only [analyze_rule]
        rw [eq1a]
        dsimp only
        rw [eq3]
        dsimp only
        rw [hb]
        dsimp only
        exact ((((d0.trans d1).trans d3).trans d4).trans
          (StateDelta.filter_top _ _)).cast (by simp)
    · dsimp only at eq2 ih_prop
      rcases hp : analyze_process_list st3 false p with ⟨stp, rp⟩
      rw [hp] at eq2 ih_prop
      dsimp only at eq2
      injection eq2 with h1 h2
      subst h1
      subst h2
      have d2 : StateDelta st3 stp [] := ih_prop.cast (by simp)
      have d3 : StateDelta stp st2 [] := by
        have h := StateDelta.filter_inner stp (result.extend rp).link_occurrences
        rw [eq3] at h
        exact h
      rcases body with _ | b
      · simp only [analyze_rule]
        rw [eq1a]
        dsimp only
        rw [hp]
        dsimp only
        rw [eq3]
        dsimp only
        exact ((((d0.trans d1).trans d2).trans d3).trans
          (StateDelta.filter_top _ _)).cast (by simp)
      · dsimp only at ih_body
        rcases hb : analyze_process_list st2 false b with ⟨stb, rb⟩
        rw [hb] at ih_body
        have d4 : StateDelta st2 stb [] := ih_body.cast (by simp)
        simp only [analyze_rule]
        rw [eq1a]
        dsimp only
        rw [hp]
        dsimp only
        rw [eq3]
        dsimp only
        rw [hb]
        dsimp only
        exact (((((d0.trans d1).trans d2).trans d3).trans d4).trans
          (StateDelta.filter_top _ _)).cast (by simp)
  case _ => -- process list
    intro st tl processes span ih2
    have hval : (analyze_process_list st tl (ProcessList.mk processes span)).1 =
        (analyze_processes st tl processes AnalysisResult.empty).1 := by
      simp only [analyze_process_list]
    rw [hval]
    refine ih2.cast ?_
    cases tl <;> simp [topLinkSpansPL]
  case _ => -- process lists, nil
    intro st acc
    have hval : (analyze_process_lists st [] acc).1 = st := by
      simp [analyze_process_lists]
    rw [hval]
    exact StateDelta.rfl st
  case _ => -- process lists, cons
    intro st acc pl rest st3 result eq1 ih5 ih6
    have d1 : StateDelta st st3 [] := by
      have h := ih5
      rw [eq1] at h
      exact h.cast (by simp)
    have hval : (analyze_process_lists st (pl :: rest) acc).1 =
        (analyze_process_lists st3 rest (acc.extend result)).1 := by
      simp only [analyze_process_lists, eq1]
    rw [hval]
    exact (d1.trans ih6).cast (by simp)


/-- The spans of the link nodes sitting directly in the program\x27s outermost
process lists. -/
def topLinkSpansProgram : ProcessNode → List Span
  | .membrane _ _ pls _ _ => pls.flatMap topLinkSpansPL
  | _ => []

theorem analyze_top_lists_delta (pls : List ProcessList) (st : AState)
    (acc : AnalysisResult) :
    StateDelta st (analyze_top_lists st acc pls).1 (pls.flatMap topLinkSpansPL) := by
  induction pls generalizing st acc with
  | nil => exact (StateDelta.rfl st).cast (by simp)
  | cons pl rest ih =>
      have d1 := traversal_delta.2.2.2.2.1 st true pl
      rw [if_pos rfl] at d1
      exact (d1.trans (ih _ _)).cast (by simp)

theorem analyze_top_delta (uri : String) (ast : ProcessNode) :
    StateDelta ⟨uri, [], [], [], []⟩ (analyze_top uri ast).1
      (topLinkSpansProgram ast) := by
  match ast with
  | .membrane name nameSpan pls rules span =>
      have d1 := analyze_top_lists_delta pls ⟨uri, [], [], [], []⟩ AnalysisResult.empty
      have d2 := traversal_delta.2.2.1
        (analyze_top_lists ⟨uri, [], [], [], []⟩ AnalysisResult.empty pls).1 rules
        (analyze_top_lists ⟨uri, [], [], [], []⟩ AnalysisResult.empty pls).2
      exact (d1.trans d2).cast (by simp [topLinkSpansProgram])
  | .atom name nameSpan args span => exact (StateDelta.rfl _).cast (by simp [topLinkSpansProgram])
  | .link name hl span => exact (StateDelta.rfl _).cast (by simp [topLinkSpansProgram])
  | .context span => exact (StateDelta.rfl _).cast (by simp [topLinkSpansProgram])

theorem analyze_delta (uri : String) (ast : ProcessNode) :
    StateDelta ⟨uri, [], [], [], []⟩
      (filter_links_top (analyze_top uri ast).1 (analyze_top uri ast).2.link_occurrences)
      (topLinkSpansProgram ast) :=
  ((analyze_top_delta uri ast).trans
    (StateDelta.filter_top (analyze_top uri ast).1
      (analyze_top uri ast).2.link_occurrences)).cast (by simp)

/-- C10 (invariants): every diagnostic emitted by the analysis pass carries
severity ERROR — none is emitted with Warning, Information, Hint, or an
absent severity. -/
theorem analyze_diagnostics_all_error (uri : String) (ast : ProcessNode) :
    ∀ d ∈ (analyze uri ast).diagnostics,
      d.severity = some DiagnosticSeverity.error := by
  intro d hdm
  obtain ⟨⟨extra, hd, hs, _⟩, _, _⟩ := analyze_delta uri ast
  have hval : (analyze uri ast).diagnostics =
      (filter_links_top (analyze_top uri ast).1
        (analyze_top uri ast).2.link_occurrences).diagnostics := rfl
  rw [hval, hd] at hdm
  simp only [List.nil_append] at hdm
  exact hs d hdm

/-- Witness for `analyze_diagnostics_all_error`: the "Free link" diagnostic
produced by a single plain link inside a top-level atom. -/
theorem analyze_diagnostics_all_error_witness :
    (freeLinkDiag ⟨⟨0, 2⟩, ⟨0, 3⟩, 1⟩).severity = some DiagnosticSeverity.error := by
  apply analyze_diagnostics_all_error "file:///a.lmn"
    (.membrane "" ⟨⟨0, 0⟩, ⟨0, 1⟩, 1⟩
      [.mk [.atom (.plain "a") ⟨⟨0, 0⟩, ⟨0, 1⟩, 1⟩
        [.link "A" false ⟨⟨0, 2⟩, ⟨0, 3⟩, 1⟩] ⟨⟨0, 0⟩, ⟨0, 1⟩, 1⟩] ⟨⟨0, 0⟩, ⟨0, 1⟩, 1⟩]
      [] ⟨⟨0, 0⟩, ⟨0, 1⟩, 1⟩)
  simp [analyze, analyze_top, analyze_top_lists, analyze_process_list,
    analyze_processes, analyze_process, analyze_rules, add_symbol,
    AnalysisResult.empty, AnalysisResult.extend, OccMap.extend, OccMap.addMany,
    filter_links_top, filter_links_top_entry, atom_token_type]

/-- C5 (error_handling): a Link node directly in the program\x27s outermost
process list yields exactly one "Link at top level" diagnostic at its span
and records no occurrence in any plain-link or hyperlink map (its analysis
result is empty), so analysis emits, program-wide, exactly one such
diagnostic per direct top-level link node, at that node\x27s span, in order. -/
theorem top_level_link_diagnostic (uri : String) (ast : ProcessNode) :
    (∀ (st : AState) (n : String) (hl : Bool) (sp : Span),
      analyze_process st true (.link n hl sp) =
        ({ st with diagnostics := st.diagnostics ++ [linkAtTopLevelDiag sp] },
         AnalysisResult.empty)) ∧
    (∀ sp, (linkAtTopLevelDiag sp).message = "Link at top level" ∧
      (linkAtTopLevelDiag sp).range = span_to_range sp) ∧
    (analyze uri ast).diagnostics.filter isTopLevelLinkMsg =
      (topLinkSpansProgram ast).map linkAtTopLevelDiag := by
  refine ⟨?_, fun sp => ⟨rfl, rfl⟩, ?_⟩
  · intro st n hl sp
    simp [analyze_process, AnalysisResult.empty]
  · obtain ⟨⟨extra, hd, _, hf⟩, _, _⟩ := analyze_delta uri ast
    have hval : (analyze uri ast).diagnostics =
        (filter_links_top (analyze_top uri ast).1
          (analyze_top uri ast).2.link_occurrences).diagnostics := rfl
    rw [hval, hd]
    simp only [List.nil_append]
    exact hf


/-! ## Theorems: position lookup (claim C7) -/

/-- The sorted/non-overlap hypothesis on the symbol table: strictly separated
in the Symbol order — on a later line, or further right on the same line with
the closed ranges disjoint. -/
def symSep (a b : Symbol) : Prop :=
  a.line < b.line ∨ (a.line = b.line ∧ a.col + a.length < b.col)

theorem is_inside_iff (s : Symbol) (line col : Nat) :
    s.is_inside line col = true ↔
      s.line = line ∧ s.col ≤ col ∧ col ≤ s.col + s.length := by
  simp [Symbol.is_inside, Bool.and_eq_true, and_assoc]

theorem getD_default_eq {l : List Symbol} {i : Nat} (h : i < l.length) :
    l.getD i default = l[i] := by
  rw [List.getD_eq_getElem?_getD, List.getElem?_eq_getElem h]
  rfl

theorem at_most_one_inside {line col : Nat} {refs : List Symbol}
    (hsep : refs.Pairwise symSep)
    {i j : Nat} (hi : i < refs.length) (hj : j < refs.length)
    (hins_i : (refs.getD i default).is_inside line col = true)
    (hins_j : (refs.getD j default).is_inside line col = true) : i = j := by
  rw [getD_default_eq hi, is_inside_iff] at hins_i
  rw [getD_default_eq hj, is_inside_iff] at hins_j
  rcases Nat.lt_trichotomy i j with h | h | h
  · exfalso
    have hsep2 := List.pairwise_iff_get.mp hsep ⟨i, hi⟩ ⟨j, hj⟩ h
    simp only [List.get_eq_getElem] at hsep2
    unfold symSep at hsep2
    omega
  · exact h
  · exfalso
    have hsep2 := List.pairwise_iff_get.mp hsep ⟨j, hj⟩ ⟨i, hi⟩ h
    simp only [List.get_eq_getElem] at hsep2
    unfold symSep at hsep2
    omega

theorem find_loop_step_inside {line col low high : Nat} {refs : List Symbol}
    (hle : low ≤ high)
    (hins : (refs.getD ((low + high) / 2) default).is_inside line col = true) :
    find_loop line col refs low high = some ((low + high) / 2) := by
  rw [find_loop]
  simp only [dif_pos hle]
  simp only [List.getD_eq_getElem?_getD] at hins
  simp [hins]

theorem find_loop_step_right {line col low high : Nat} {refs : List Symbol}
    (hle : low ≤ high)
    (hins : ¬ (refs.getD ((low + high) / 2) default).is_inside line col = true)
    (hgo : (refs.getD ((low + high) / 2) default).line < line ∨
      ((refs.getD ((low + high) / 2) default).line = line ∧
       (refs.getD ((low + high) / 2) default).col < col)) :
    find_loop line col refs low high =
      find_loop line col refs ((low + high) / 2 + 1) high := by
  rw [find_loop]
  simp only [dif_pos hle]
  simp only [List.getD_eq_getElem?_getD] at hins hgo
  simp [hins, hgo]

theorem find_loop_step_break {line col low high : Nat} {refs : List Symbol}
    (hle : low ≤ high)
    (hins : ¬ (refs.getD ((low + high) / 2) default).is_inside line col = true)
    (hgo : ¬ ((refs.getD ((low + high) / 2) default).line < line ∨
      ((refs.getD ((low + high) / 2) default).line = line ∧
       (refs.getD ((low + high) / 2) default).col < col)))
    (hzero : (low + high) / 2 = 0) :
    find_loop line col refs low high = none := by
  rw [find_loop]
  simp only [dif_pos hle]
  simp only [List.getD_eq_getElem?_getD] at hins hgo
  rw [hzero] at hins hgo
  simp [hins, hgo, hzero]

theorem find_loop_step_left {line col low high : Nat} {refs : List Symbol}
    (hle : low ≤ high)
    (hins : ¬ (refs.getD ((low + high) / 2) default).is_inside line col = true)
    (hgo : ¬ ((refs.getD ((low + high) / 2) default).line < line ∨
      ((refs.getD ((low + high) / 2) default).line = line ∧
       (refs.getD ((low + high) / 2) default).col < col)))
    (hzero : ¬ (low + high) / 2 = 0) :
    find_loop line col refs low high =
      find_loop line col refs low ((low + high) / 2 - 1) := by
  rw [find_loop]
  simp only [dif_pos hle]
  simp only [List.getD_eq_getElem?_getD] at hins hgo
  simp [hins, hgo, hzero]

theorem find_loop_stop {line col low high : Nat} {refs : List Symbol}
    (hle : ¬ low ≤ high) :
    find_loop line col refs low high = none := by
  rw [find_loop]
  simp [dif_neg hle]

theorem find_loop_sound (line col : Nat) (refs : List Symbol) (i : Nat) :
    ∀ low high, high < refs.length →
      find_loop line col refs low high = some i →
      i < refs.length ∧ (refs.getD i default).is_inside line col = true := by
  intro low high
  induction low, high using find_loop.induct line col refs with
  | case1 low high hle mid mid_val hins =>
      intro hh hres
      have hins2 : (refs.getD ((low + high) / 2) default).is_inside line col = true := hins
      rw [find_loop_step_inside hle hins2] at hres
      injection hres with hres
      subst hres
      exact ⟨by omega, hins2⟩
  | case2 low high hle mid mid_val hins hgo ih =>
      intro hh hres
      rw [find_loop_step_right hle hins hgo] at hres
      exact ih hh hres
  | case3 low high hle mid mid_val hins hgo hzero =>
      intro hh hres
      rw [find_loop_step_break hle hins hgo hzero] at hres
      cases hres
  | case4 low high hle mid mid_val hins hgo hzero ih =>
      intro hh hres
      rw [find_loop_step_left hle hins hgo hzero] at hres
      have hmid : mid = (low + high) / 2 := rfl
      exact ih (by omega) hres
  | case5 low high hle =>
      intro hh hres
      rw [find_loop_stop hle] at hres
      cases hres

theorem find_loop_complete (line col : Nat) (refs : List Symbol)
    (hsep : refs.Pairwise symSep) (k : Nat) (hk : k < refs.length)
    (hins : (refs.getD k default).is_inside line col = true) :
    ∀ low high, low ≤ k → k ≤ high → high < refs.length →
      find_loop line col refs low high = some k := by
  intro low high
  induction low, high using find_loop.induct line col refs with
  | case1 low high hle mid mid_val hinsm =>
      intro hlk hkh hh
      have hinsm2 : (refs.getD ((low + high) / 2) default).is_inside line col = true := hinsm
      rw [find_loop_step_inside hle hinsm2]
      exact congrArg some (at_most_one_inside hsep (by omega) hk hinsm2 hins)
  | case2 low high hle mid mid_val hinsm hgo ih =>
      intro hlk hkh hh
      have hmid : mid = (low + high) / 2 := rfl
      have hmlen : (low + high) / 2 < refs.length := by omega
      have hkmid : (low + high) / 2 < k := by
        rcases Nat.lt_trichotomy k ((low + high) / 2) with h | h | h
        · exfalso
          have hsep2 := List.pairwise_iff_get.mp hsep ⟨k, hk⟩
            ⟨(low + high) / 2, hmlen⟩ h
          simp only [List.get_eq_getElem] at hsep2
          unfold symSep at hsep2
          have hins2 := hins
          rw [getD_default_eq hk, is_inside_iff] at hins2
          have hgo2 : (refs.getD ((low + high) / 2) default).line < line ∨
              ((refs.getD ((low + high) / 2) default).line = line ∧
               (refs.getD ((low + high) / 2) default).col < col) := hgo
          rw [getD_default_eq hmlen] at hgo2
          omega
        · exfalso
          have hinsm2 : ¬ (refs.getD ((low + high) / 2) default).is_inside line col
              = true := hinsm
          rw [← h] at hinsm2
          exact hinsm2 hins
        · exact h
      rw [find_loop_step_right hle hinsm hgo]
      exact ih (by omega) (by omega) (by omega)
  | case3 low high hle mid mid_val hinsm hgo hzero =>
      intro hlk hkh hh
      exfalso
      have hmid : mid = (low + high) / 2 := rfl
      have hmlen : (low + high) / 2 < refs.length := by omega
      have hkmid : k < (low + high) / 2 := by
        rcases Nat.lt_trichotomy k ((low + high) / 2) with h | h | h
        · exact h
        · exfalso
          have hinsm2 : ¬ (refs.getD ((low + high) / 2) default).is_inside line col
              = true := hinsm
          rw [← h] at hinsm2
          exact hinsm2 hins
        · exfalso
          have hsep2 := List.pairwise_iff_get.mp hsep ⟨(low + high) / 2, hmlen⟩
            ⟨k, hk⟩ h
          simp only [List.get_eq_getElem] at hsep2
          unfold symSep at hsep2
          have hins2 := hins
          rw [getD_default_eq hk, is_inside_iff] at hins2
          have hgo2 : ¬ ((refs.getD ((low + high) / 2) default).line < line ∨
              ((refs.getD ((low + high) / 2) default).line = line ∧
               (refs.getD ((low + high) / 2) default).col < col)) := hgo
          rw [getD_default_eq hmlen] at hgo2
          push_neg at hgo2
          have hinsm3 : ¬ (refs.getD ((low + high) / 2) default).is_inside line col
              = true := hinsm
          rw [getD_default_eq hmlen, is_inside_iff] at hinsm3
          push_neg at hinsm3
          omega
      omega
  | case4 low high hle mid mid_val hinsm hgo hzero ih =>
      intro hlk hkh hh
      have hmid : mid = (low + high) / 2 := rfl
      have hmlen : (low + high) / 2 < refs.length := by omega
      have hkmid : k < (low + high) / 2 := by
        rcases Nat.lt_trichotomy k ((low + high) / 2) with h | h | h
        · exact h
        · exfalso
          have hinsm2 : ¬ (refs.getD ((low + high) / 2) default).is_inside line col
              = true := hinsm
          rw [← h] at hinsm2
          exact hinsm2 hins
        · exfalso
          have hsep2 := List.pairwise_iff_get.mp hsep ⟨(low + high) / 2, hmlen⟩
            ⟨k, hk⟩ h
          simp only [List.get_eq_getElem] at hsep2
          unfold symSep at hsep2
          have hins2 := hins
          rw [getD_default_eq hk, is_inside_iff] at hins2
          have hgo2 : ¬ ((refs.getD ((low + high) / 2) default).line < line ∨
              ((refs.getD ((low + high) / 2) default).line = line ∧
               (refs.getD ((low + high) / 2) default).col < col)) := hgo
          rw [getD_default_eq hmlen] at hgo2
          push_neg at hgo2
          have hinsm3 : ¬ (refs.getD ((low + high) / 2) default).is_inside line col
              = true := hinsm
          rw [getD_default_eq hmlen, is_inside_iff] at hinsm3
          push_neg at hinsm3
          omega
      rw [find_loop_step_left hle hinsm hgo hzero]
      exact ih (by omega) (by omega) (by omega)
  | case5 low high hle =>
      intro hlk hkh hh
      omega

/-- C7 (functional_correctness): on a symbol table sorted by the Symbol
order with non-overlapping ranges, the binary search `find` (as used by
`query`) returns the unique symbol whose range contains the queried position
(`symbol.line = line`, `symbol.col ≤ col ≤ symbol.col + symbol.length`) when
one exists, and `none` when no symbol contains the position — in particular
for a column strictly between two symbols\x27 ranges on the same line. -/
theorem find_position_lookup (line col : Nat) (refs : List Symbol)
    (hsep : refs.Pairwise symSep) :
    (∀ i, i < refs.length → (refs.getD i default).is_inside line col = true →
      find line col refs = some i) ∧
    (find line col refs = none ↔ ∀ s ∈ refs, ¬ s.is_inside line col = true) := by
  have hmain : ∀ i, i < refs.length →
      (refs.getD i default).is_inside line col = true →
      find line col refs = some i := by
    intro i hi hins
    have hne : ¬ refs.isEmpty = true := by
      rw [List.isEmpty_iff]
      intro h
      subst h
      simp at hi
    rw [find, if_neg hne]
    exact find_loop_complete line col refs hsep i hi hins 0 (refs.length - 1)
      (by omega) (by omega) (by omega)
  refine ⟨hmain, ?_, ?_⟩
  · intro hnone s hs hins
    obtain ⟨i, hi, hgi⟩ := List.mem_iff_getElem.mp hs
    have := hmain i hi (by rw [getD_default_eq hi, hgi]; exact hins)
    rw [hnone] at this
    cases this
  · intro hall
    by_cases hemp : refs.isEmpty
    · rw [find, if_pos hemp]
    · rw [find, if_neg hemp]
      rcases hres : find_loop line col refs 0 (refs.length - 1) with _ | i
      · rfl
      · exfalso
        have hlen : 0 < refs.length := by
          rcases refs with _ | ⟨a, l⟩
          · simp at hemp
          · simp
        obtain ⟨hi, hins⟩ := find_loop_sound line col refs i 0 (refs.length - 1)
          (by omega) hres
        rw [getD_default_eq hi] at hins
        exact hall refs[i] (refs.getElem_mem hi) hins

/-- Witness for `find_position_lookup`: the symbol table of the source\x27s own
`test_find` unit test, with a hit and a miss both checked. -/
theorem find_position_lookup_witness :
    (find 1 2 [⟨0, 0, 1⟩, ⟨0, 2, 1⟩, ⟨1, 1, 2⟩, ⟨1, 4, 1⟩] = some 2) ∧
    (find 1 0 [⟨0, 0, 1⟩, ⟨0, 2, 1⟩, ⟨1, 1, 2⟩, ⟨1, 4, 1⟩] = none) := by
  have hsep : ([⟨0, 0, 1⟩, ⟨0, 2, 1⟩, ⟨1, 1, 2⟩, ⟨1, 4, 1⟩] :
      List Symbol).Pairwise symSep := by
    unfold symSep
    simp
  have h1 := (find_position_lookup 1 2 _ hsep).1 2 (by simp)
    (by simp [Symbol.is_inside])
  have h2 := (find_position_lookup 1 0 _ hsep).2.mpr ?_
  · exact ⟨h1, h2⟩
  · intro s hs
    simp only [List.mem_cons, List.not_mem_nil] at hs
    rcases hs with h | h | h | h | h <;> first
      | (subst h; simp [Symbol.is_inside])
      | exact absurd h (by simp)

/-! ## Theorems: LinkGroup sizes (claim C4) -/

/-- Counterexample to C4: a single hyperlink occurrence inside a top-level
atom.  `analyze` flushes the hyperlink occurrence list into `refs` as a group
of size 1, so not every finalized reference group has exactly 2 spans. -/
theorem refs_group_size_counterexample :
    (analyze "file:///a.lmn"
      (.membrane "" ⟨⟨0, 0⟩, ⟨0, 1⟩, 1⟩
        [.mk [.atom (.plain "a") ⟨⟨0, 0⟩, ⟨0, 1⟩, 1⟩
          [.link "X" true ⟨⟨0, 2⟩, ⟨0, 3⟩, 1⟩] ⟨⟨0, 0⟩, ⟨0, 1⟩, 1⟩] ⟨⟨0, 0⟩, ⟨0, 1⟩, 1⟩]
        [] ⟨⟨0, 0⟩, ⟨0, 1⟩, 1⟩)).refs = [[⟨⟨0, 2⟩, ⟨0, 3⟩, 1⟩]] ∧
    ¬ (∀ g ∈ (analyze "file:///a.lmn"
      (.membrane "" ⟨⟨0, 0⟩, ⟨0, 1⟩, 1⟩
        [.mk [.atom (.plain "a") ⟨⟨0, 0⟩, ⟨0, 1⟩, 1⟩
          [.link "X" true ⟨⟨0, 2⟩, ⟨0, 3⟩, 1⟩] ⟨⟨0, 0⟩, ⟨0, 1⟩, 1⟩] ⟨⟨0, 0⟩, ⟨0, 1⟩, 1⟩]
        [] ⟨⟨0, 0⟩, ⟨0, 1⟩, 1⟩)).refs, g.length = 2) := by
  have hval : (analyze "file:///a.lmn"
      (.membrane "" ⟨⟨0, 0⟩, ⟨0, 1⟩, 1⟩
        [.mk [.atom (.plain "a") ⟨⟨0, 0⟩, ⟨0, 1⟩, 1⟩
          [.link "X" true ⟨⟨0, 2⟩, ⟨0, 3⟩, 1⟩] ⟨⟨0, 0⟩, ⟨0, 1⟩, 1⟩] ⟨⟨0, 0⟩, ⟨0, 1⟩, 1⟩]
        [] ⟨⟨0, 0⟩, ⟨0, 1⟩, 1⟩)).refs = [[⟨⟨0, 2⟩, ⟨0, 3⟩, 1⟩]] := by
    simp [analyze, analyze_top, analyze_top_lists, analyze_process_list,
      analyze_processes, analyze_process, analyze_rules, add_symbol,
      AnalysisResult.empty, AnalysisResult.extend, OccMap.extend, OccMap.addMany,
      filter_links_top, filter_links_top_entry, atom_token_type]
  refine ⟨hval, ?_⟩
  intro hall
  have := hall [⟨⟨0, 2⟩, ⟨0, 3⟩, 1⟩] (by rw [hval]; simp)
  simp at this

/-- C4 (invariants), as amended: every element of the finalized refs list
built by `filter_links_inner` or `filter_links_top` has exactly 2 spans;
the only other groups are those of the top-level hyperlink flush, which are
hyperlink occurrence lists of arbitrary positive size.  Hence every group
handed to the Reference Index either has length exactly 2 or is one of the
flushed hyperlink occurrence lists. -/
theorem refs_group_sizes (uri : String) (ast : ProcessNode) :
    ∀ g ∈ (analyze uri ast).refs,
      g.length = 2 ∨
        g ∈ (analyze_top uri ast).2.hyperlink_occurrences.map Prod.snd := by
  intro g hg
  obtain ⟨_, ⟨groups, hr, hlen⟩, _⟩ := analyze_delta uri ast
  have hval : (analyze uri ast).refs =
      (filter_links_top (analyze_top uri ast).1
        (analyze_top uri ast).2.link_occurrences).refs ++
      (analyze_top uri ast).2.hyperlink_occurrences.map Prod.snd := rfl
  rw [hval, hr] at hg
  simp only [List.nil_append, List.mem_append] at hg
  rcases hg with hg | hg
  · exact Or.inl (hlen g hg)
  · exact Or.inr hg

/-- Witness for `refs_group_sizes`: the group formed by a plain link used
twice inside a top-level atom has length 2. -/
theorem refs_group_sizes_witness :
    ([⟨⟨0, 2⟩, ⟨0, 3⟩, 1⟩, ⟨⟨0, 4⟩, ⟨0, 5⟩, 1⟩] : List Span).length = 2 ∨
    ([⟨⟨0, 2⟩, ⟨0, 3⟩, 1⟩, ⟨⟨0, 4⟩, ⟨0, 5⟩, 1⟩] : List Span) ∈
      (analyze_top "file:///a.lmn"
        (.membrane "" ⟨⟨0, 0⟩, ⟨0, 1⟩, 1⟩
          [.mk [.atom (.plain "a") ⟨⟨0, 0⟩, ⟨0, 1⟩, 1⟩
            [.link "A" false ⟨⟨0, 2⟩, ⟨0, 3⟩, 1⟩,
             .link "A" false ⟨⟨0, 4⟩, ⟨0, 5⟩, 1⟩] ⟨⟨0, 0⟩, ⟨0, 1⟩, 1⟩]
            ⟨⟨0, 0⟩, ⟨0, 1⟩, 1⟩]
          [] ⟨⟨0, 0⟩, ⟨0, 1⟩, 1⟩)).2.hyperlink_occurrences.map Prod.snd := by
  apply refs_group_sizes "file:///a.lmn"
    (.membrane "" ⟨⟨0, 0⟩, ⟨0, 1⟩, 1⟩
      [.mk [.atom (.plain "a") ⟨⟨0, 0⟩, ⟨0, 1⟩, 1⟩
        [.link "A" false ⟨⟨0, 2⟩, ⟨0, 3⟩, 1⟩,
         .link "A" false ⟨⟨0, 4⟩, ⟨0, 5⟩, 1⟩] ⟨⟨0, 0⟩, ⟨0, 1⟩, 1⟩]
        ⟨⟨0, 0⟩, ⟨0, 1⟩, 1⟩]
      [] ⟨⟨0, 0⟩, ⟨0, 1⟩, 1⟩)
  have hval : (analyze "file:///a.lmn"
      (.membrane "" ⟨⟨0, 0⟩, ⟨0, 1⟩, 1⟩
        [.mk [.atom (.plain "a") ⟨⟨0, 0⟩, ⟨0, 1⟩, 1⟩
          [.link "A" false ⟨⟨0, 2⟩, ⟨0, 3⟩, 1⟩,
           .link "A" false ⟨⟨0, 4⟩, ⟨0, 5⟩, 1⟩] ⟨⟨0, 0⟩, ⟨0, 1⟩, 1⟩]
          ⟨⟨0, 0⟩, ⟨0, 1⟩, 1⟩]
        [] ⟨⟨0, 0⟩, ⟨0, 1⟩, 1⟩)).refs =
      [[⟨⟨0, 2⟩, ⟨0, 3⟩, 1⟩, ⟨⟨0, 4⟩, ⟨0, 5⟩, 1⟩]] := by
    simp [analyze, analyze_top, analyze_top_lists, analyze_process_list,
      analyze_processes, analyze_process, analyze_rules, add_symbol,
      AnalysisResult.empty, AnalysisResult.extend, OccMap.extend, OccMap.addMany,
      filter_links_top, filter_links_top_entry, atom_token_type]
  rw [hval]
  simp


/-! ## Theorems: hyperlink handling at terminal boundaries (claim C3) -/

/-- A rule whose head holds the hyperlink name X twice: the occurrence count
accumulated within the rule is 2. -/
def c3_ast : ProcessNode :=
  .membrane "" ⟨⟨0, 0⟩, ⟨2, 0⟩, 1⟩ []
    [.mk "r" ⟨⟨0, 0⟩, ⟨0, 1⟩, 1⟩
      (.mk [.link "X" true ⟨⟨0, 5⟩, ⟨0, 7⟩, 2⟩,
            .link "X" true ⟨⟨0, 9⟩, ⟨0, 11⟩, 2⟩] ⟨⟨0, 5⟩, ⟨0, 11⟩, 6⟩)
      none none none ⟨⟨0, 0⟩, ⟨1, 0⟩, 1⟩]
    ⟨⟨0, 0⟩, ⟨2, 0⟩, 1⟩

/-- The collection phase on c3_ast: the rule returns only its outline symbol,
so the hyperlink occurrences accumulated in its head are gone from the
result, and the rule pushed neither a reference group nor a diagnostic. -/
theorem c3_ast_eval :
    analyze_top "file:///a.lmn" c3_ast =
      (⟨"file:///a.lmn",
        [⟨0, 0, 0, 1⟩, ⟨4, 0, 5, 2⟩, ⟨4, 0, 9, 2⟩],
        [], [],
        [⟨⟨0, 5⟩, ⟨0, 7⟩, 2⟩, ⟨⟨0, 9⟩, ⟨0, 11⟩, 2⟩]⟩,
       ⟨[.leaf "r" .function ⟨⟨0, 0⟩, ⟨1, 0⟩⟩ ⟨⟨0, 0⟩, ⟨0, 1⟩⟩], [], []⟩) := by
  simp [c3_ast, analyze_top, analyze_top_lists, analyze_rules, analyze_rule,
    analyze_process_list, analyze_processes, analyze_process, add_symbol,
    AnalysisResult.empty, AnalysisResult.extend, AnalysisResult.extend_rules,
    OccMap.extend, OccMap.addMany, filter_links_top, filter_links_top_entry,
    filter_links_inner, atom_token_type, span_to_range, to_position,
    RULE_LEGEND_TYPE, HYPERLINK_LEGEND_TYPE]

/-- Counterexample to C3: the hyperlink name X occurs twice inside the rule
of c3_ast, so the claim predicts exactly one LinkGroup at the rule\x27s
terminal boundary; the code discards the rule\x27s hyperlink occurrences
entirely — the analysis produces no LinkGroup and no diagnostic. -/
theorem hyperlink_rule_counterexample :
    (analyze "file:///a.lmn" c3_ast).refs = [] ∧
    (analyze "file:///a.lmn" c3_ast).diagnostics = [] ∧
    ¬ (analyze "file:///a.lmn" c3_ast).refs.length = 1 := by
  refine ⟨?_, ?_, ?_⟩ <;>
    simp [analyze, c3_ast_eval, filter_links_top, filter_links_top_entry]

/-- C3 (functional_correctness), as amended: hyperlink names are not treated
like plain-link names at terminal resolution.  Rules propagate no occurrence
data at all, so hyperlink occurrences accumulated within a rule are discarded
at the rule\x27s boundary (no diagnostic, no LinkGroup: every group a rule
adds has exactly 2 spans and comes from its plain links); hyperlink names
reaching the program\x27s outermost boundary are flushed into `refs` as one
group per name holding that name\x27s full occurrence list, regardless of
count, with no diagnostics added by the flush. -/
theorem hyperlink_terminal_behavior (uri : String) (ast : ProcessNode) :
    (∀ (rs : List RuleNode) (st : AState) (acc : AnalysisResult),
      (analyze_rules st rs acc).2.link_occurrences = acc.link_occurrences ∧
      (analyze_rules st rs acc).2.hyperlink_occurrences =
        acc.hyperlink_occurrences) ∧
    (∀ (st : AState) (r : RuleNode), ∃ groups,
      (analyze_rule st r).1.refs = st.refs ++ groups ∧
      ∀ g ∈ groups, g.length = 2) ∧
    (analyze uri ast).refs =
      (filter_links_top (analyze_top uri ast).1
        (analyze_top uri ast).2.link_occurrences).refs ++
      (analyze_top uri ast).2.hyperlink_occurrences.map Prod.snd ∧
    (analyze uri ast).diagnostics =
      (filter_links_top (analyze_top uri ast).1
        (analyze_top uri ast).2.link_occurrences).diagnostics := by
  refine ⟨fun rs st acc => analyze_rules_occurrences rs st acc, ?_, rfl, rfl⟩
  intro st r
  obtain ⟨_, ⟨groups, hr, hlen⟩, _⟩ := traversal_delta.2.2.2.1 st r
  exact ⟨groups, hr, hlen⟩

/-- Witness for `hyperlink_terminal_behavior` at a concrete rule and state. -/
theorem hyperlink_terminal_behavior_witness :
    ((analyze_rules ⟨"file:///a.lmn", [], [], [], []⟩ [] AnalysisResult.empty).2.link_occurrences
        = AnalysisResult.empty.link_occurrences) ∧
    (∃ groups,
      (analyze_rule ⟨"file:///a.lmn", [], [], [], []⟩
        (.mk "r" ⟨⟨0, 0⟩, ⟨0, 1⟩, 1⟩ (.mk [] ⟨⟨0, 0⟩, ⟨0, 1⟩, 1⟩)
          none none none ⟨⟨0, 0⟩, ⟨0, 1⟩, 1⟩)).1.refs = [] ++ groups ∧
      ∀ g ∈ groups, g.length = 2) := by
  have h := hyperlink_terminal_behavior "file:///a.lmn" (.context ⟨⟨0, 0⟩, ⟨0, 1⟩, 1⟩)
  exact ⟨(h.1 [] ⟨"file:///a.lmn", [], [], [], []⟩ AnalysisResult.empty).1,
    h.2.1 ⟨"file:///a.lmn", [], [], [], []⟩
      (.mk "r" ⟨⟨0, 0⟩, ⟨0, 1⟩, 1⟩ (.mk [] ⟨⟨0, 0⟩, ⟨0, 1⟩, 1⟩)
        none none none ⟨⟨0, 0⟩, ⟨0, 1⟩, 1⟩)⟩


/-! ## Theorems: the Reference Index symbol table (claim C6) -/

/-- All Symbols of the reference groups, in group order. -/
def allSymbols (refs : List (List Span)) : List Symbol :=
  refs.flatMap (fun g => g.map Symbol.new)

/-- The non-strict `(line, col, length)` order underlying `Symbol.lt`. -/
def symLeP (a b : Symbol) : Prop :=
  a.line < b.line ∨
    (a.line = b.line ∧ (a.col < b.col ∨ (a.col = b.col ∧ a.length ≤ b.length)))

theorem symbolLt_iff (a b : Symbol) :
    Symbol.lt a b = true ↔
      a.line < b.line ∨
        (a.line = b.line ∧ (a.col < b.col ∨ (a.col = b.col ∧ a.length < b.length))) := by
  simp [Symbol.lt]

theorem symLeP_of_not_lt {a b : Symbol} (h : ¬ Symbol.lt a b = true) : symLeP b a := by
  rw [symbolLt_iff] at h
  unfold symLeP
  omega

theorem symLeP_of_lt {a b : Symbol} (h : Symbol.lt a b = true) : symLeP a b := by
  rw [symbolLt_iff] at h
  unfold symLeP
  omega

theorem symLeP_trans {a b c : Symbol} (h1 : symLeP a b) (h2 : symLeP b c) :
    symLeP a c := by
  unfold symLeP at h1 h2 ⊢
  omega

theorem insertSymbol_perm (t : Symbol) (l : List Symbol) :
    (insertSymbol t l).Perm (t :: l) := by
  induction l with
  | nil => simp [insertSymbol]
  | cons u us ih =>
      by_cases hlt : Symbol.lt t u = true
      · simp [insertSymbol, hlt]
      · simp only [insertSymbol, hlt, Bool.false_eq_true, if_false]
        exact (ih.cons u).trans (List.Perm.swap t u us)

theorem mem_insertSymbol {w t : Symbol} {l : List Symbol} :
    w ∈ insertSymbol t l ↔ w = t ∨ w ∈ l := by
  rw [(insertSymbol_perm t l).mem_iff]
  simp

theorem insertSymbol_pairwise {t : Symbol} {l : List Symbol}
    (h : l.Pairwise symLeP) : (insertSymbol t l).Pairwise symLeP := by
  induction l with
  | nil => simp [insertSymbol]
  | cons u us ih =>
      rw [List.pairwise_cons] at h
      by_cases hlt : Symbol.lt t u = true
      · have hall : ∀ w ∈ u :: us, symLeP t w := by
          intro w hw
          rcases List.mem_cons.mp hw with hw | hw
          · exact hw ▸ symLeP_of_lt hlt
          · exact symLeP_trans (symLeP_of_lt hlt) (h.1 w hw)
        simp only [insertSymbol, hlt, if_true]
        exact List.pairwise_cons.mpr ⟨hall, List.pairwise_cons.mpr h⟩
      · simp only [insertSymbol, hlt, Bool.false_eq_true, if_false]
        refine List.pairwise_cons.mpr ⟨?_, ih h.2⟩
        intro w hw
        rcases mem_insertSymbol.mp hw with hw | hw
        · exact hw ▸ symLeP_of_not_lt hlt
        · exact h.1 w hw

theorem sortSymbols_go_pairwise (ts acc : List Symbol) (h : acc.Pairwise symLeP) :
    (ts.foldl (fun acc t => insertSymbol t acc) acc).Pairwise symLeP := by
  induction ts generalizing acc with
  | nil => simpa
  | cons t rest ih => exact ih _ (insertSymbol_pairwise h)

theorem sortSymbols_pairwise (ts : List Symbol) :
    (sortSymbols ts).Pairwise symLeP :=
  sortSymbols_go_pairwise ts [] (by simp)

theorem sortSymbols_go_perm (ts acc : List Symbol) :
    (ts.foldl (fun acc t => insertSymbol t acc) acc).Perm (acc ++ ts) := by
  induction ts generalizing acc with
  | nil => simp
  | cons t rest ih =>
      refine (ih (insertSymbol t acc)).trans ?_
      refine (((insertSymbol_perm t acc).append_right rest).trans ?_)
      simpa using (List.perm_middle (a := t)).symm

theorem sortSymbols_perm (ts : List Symbol) : (sortSymbols ts).Perm ts := by
  simpa using sortSymbols_go_perm ts []

theorem new_symbol_seq_eq (refs : List (List Span)) :
    (RefereceMap.new refs).symbol_seq = sortSymbols (allSymbols refs) := by
  have h : ∀ (l : List (List Span)) (init : List Symbol),
      l.foldl (fun acc group => acc ++ group.map Symbol.new) init =
        init ++ allSymbols l := by
    intro l
    induction l with
    | nil => intro init; simp [allSymbols]
    | cons g rest ih =>
        intro init
        rw [List.foldl_cons, ih]
        simp [allSymbols, List.flatMap_cons]
    -- end
  show sortSymbols
      (refs.foldl (fun acc group => acc ++ group.map Symbol.new) []) = _
  rw [h refs []]
  simp

/-- Modelled from the spec (§4.5 Build, the version of `RefereceMap::new`
described by the claim): the union of every LinkGroup span and every span
recorded in the outline/token pass, normalized to Symbols, sorted ascending,
deduplicated. -/
def referenceTableSpec (refs : List (List Span)) (symbols : List Span) :
    List Symbol :=
  (sortSymbols (allSymbols refs ++ symbols.map Symbol.new)).dedup

/-- Counterexample to C6: the one-argument `RefereceMap::new` of the source
builds the table from LinkGroup spans only and never deduplicates.  On
groups `[[a, b]]` plus a token-pass span `c`, the claimed table holds three
symbols but the code\x27s table holds two; and on groups `[[a, a]]` the
code\x27s table keeps the duplicate, so not every Symbol in it is unique. -/
theorem reference_table_counterexample :
    (RefereceMap.new [[⟨⟨0, 0⟩, ⟨0, 1⟩, 1⟩, ⟨⟨0, 2⟩, ⟨0, 3⟩, 1⟩]]).symbol_seq =
      [⟨0, 0, 1⟩, ⟨0, 2, 1⟩] ∧
    referenceTableSpec [[⟨⟨0, 0⟩, ⟨0, 1⟩, 1⟩, ⟨⟨0, 2⟩, ⟨0, 3⟩, 1⟩]]
      [⟨⟨1, 0⟩, ⟨1, 1⟩, 1⟩] = [⟨0, 0, 1⟩, ⟨0, 2, 1⟩, ⟨1, 0, 1⟩] ∧
    (RefereceMap.new [[⟨⟨0, 0⟩, ⟨0, 1⟩, 1⟩, ⟨⟨0, 2⟩, ⟨0, 3⟩, 1⟩]]).symbol_seq ≠
      referenceTableSpec [[⟨⟨0, 0⟩, ⟨0, 1⟩, 1⟩, ⟨⟨0, 2⟩, ⟨0, 3⟩, 1⟩]]
        [⟨⟨1, 0⟩, ⟨1, 1⟩, 1⟩] ∧
    (RefereceMap.new [[⟨⟨0, 0⟩, ⟨0, 1⟩, 1⟩, ⟨⟨0, 0⟩, ⟨0, 1⟩, 1⟩]]).symbol_seq =
      [⟨0, 0, 1⟩, ⟨0, 0, 1⟩] ∧
    ¬ (RefereceMap.new
        [[⟨⟨0, 0⟩, ⟨0, 1⟩, 1⟩, ⟨⟨0, 0⟩, ⟨0, 1⟩, 1⟩]]).symbol_seq.Nodup := by
  refine ⟨by decide, by decide, by decide, by decide, by decide⟩

/-- C6 (functional_correctness), as amended: the symbol table of
`RefereceMap::new` is built from the LinkGroup spans only — each normalized
to a `(line, column, length)` Symbol and sorted ascending by the Symbol
order — with no deduplication and no contribution from the token/outline
pass: it is exactly the stable sort of the groups\x27 symbols, a permutation
of them, ascending under the Symbol order. -/
theorem reference_table_build (refs : List (List Span)) :
    (RefereceMap.new refs).symbol_seq = sortSymbols (allSymbols refs) ∧
    (RefereceMap.new refs).symbol_seq.Pairwise symLeP ∧
    (RefereceMap.new refs).symbol_seq.Perm (allSymbols refs) := by
  refine ⟨new_symbol_seq_eq refs, ?_, ?_⟩
  · rw [new_symbol_seq_eq refs]
    exact sortSymbols_pairwise _
  · rw [new_symbol_seq_eq refs]
    exact sortSymbols_perm _


/-! ## Theorems: query_with_self (claim C8) — helper layer -/

theorem lookup_addMany_none {k : Nat} {vs : List Nat} {m : IdxMap}
    (h : IdxMap.lookup k m = none) :
    IdxMap.lookup k (IdxMap.addMany k vs m) = some vs := by
  induction m with
  | nil => simp [IdxMap.addMany, IdxMap.lookup]
  | cons e rest ih =>
      obtain ⟨k0, v0⟩ := e
      by_cases hk : k0 = k
      · subst hk
        simp [IdxMap.lookup] at h
      · simp only [IdxMap.lookup, if_neg hk] at h
        simp only [IdxMap.addMany, if_neg hk, IdxMap.lookup]
        exact ih h

theorem lookup_addMany_ne {k k2 : Nat} (vs : List Nat) (m : IdxMap)
    (h : k ≠ k2) :
    IdxMap.lookup k (IdxMap.addMany k2 vs m) = IdxMap.lookup k m := by
  have hne : ¬ k2 = k := fun hh => h hh.symm
  induction m with
  | nil =>
      simp only [IdxMap.addMany, IdxMap.lookup]
      rw [if_neg hne]
  | cons e rest ih =>
      obtain ⟨k0, v0⟩ := e
      by_cases hk : k0 = k2
      · subst hk
        simp only [IdxMap.addMany, if_pos rfl]
        simp only [IdxMap.lookup]
        rw [if_neg hne, if_neg hne]
      · simp only [IdxMap.addMany, if_neg hk]
        by_cases hk0 : k0 = k
        · simp only [IdxMap.lookup, if_pos hk0]
        · simp only [IdxMap.lookup, if_neg hk0]
          exact ih

theorem lookup_fold_not_mem {k : Nat} (steps : List (Nat × List Nat))
    (m : IdxMap) (h : k ∉ steps.map Prod.fst) :
    IdxMap.lookup k (steps.foldl (fun m p => IdxMap.addMany p.1 p.2 m) m) =
      IdxMap.lookup k m := by
  induction steps generalizing m with
  | nil => simp
  | cons p rest ih =>
      simp only [List.map_cons, List.mem_cons] at h
      push_neg at h
      rw [List.foldl_cons, ih _ h.2, lookup_addMany_ne _ _ h.1]

theorem lookup_fold_mem {steps : List (Nat × List Nat)}
    (hnd : (steps.map Prod.fst).Nodup) {k : Nat} {v : List Nat}
    (hmem : (k, v) ∈ steps) (m : IdxMap) (hm : IdxMap.lookup k m = none) :
    IdxMap.lookup k (steps.foldl (fun m p => IdxMap.addMany p.1 p.2 m) m) =
      some v := by
  induction steps generalizing m with
  | nil => simp at hmem
  | cons p rest ih =>
      simp only [List.map_cons, List.nodup_cons] at hnd
      rcases List.mem_cons.mp hmem with hmem | hmem
      · subst hmem
        rw [List.foldl_cons, lookup_fold_not_mem rest _ hnd.1]
        exact lookup_addMany_none hm
      · have hkne : k ≠ p.1 := by
          intro hk
          subst hk
          exact hnd.1 (List.mem_map.mpr ⟨(p.1, v), hmem, rfl⟩)
        rw [List.foldl_cons]
        refine ih hnd.2 hmem _ ?_
        rw [lookup_addMany_ne _ _ hkne]
        exact hm

theorem mem_enumFrom_fst_ge {α : Type} {p : Nat × α} :
    ∀ {n : Nat} {l : List α}, p ∈ List.enumFrom n l → n ≤ p.1 := by
  intro n l
  induction l generalizing n with
  | nil => intro h; simp at h
  | cons a rest ih =>
      intro h
      rcases List.mem_cons.mp h with h | h
      · subst h; simp
      · have := ih h
        omega

theorem enumFrom_getElem {α : Type} :
    ∀ (l : List α) (n i : Nat) (hi : i < l.length),
      (List.enumFrom n l).getD i (0, l[i]) = (n + i, l[i]) := by
  intro l
  induction l with
  | nil => intro n i hi; simp at hi
  | cons a rest ih =>
      intro n i hi
      match i with
      | 0 => simp [List.enumFrom]
      | j + 1 =>
          have hj : j < rest.length := by simpa using hi
          have := ih (n + 1) j hj
          simp only [List.enumFrom, List.getD_cons_succ]
          rw [show (a :: rest)[j + 1] = rest[j] from by simp]
          rw [this]
          congr 1
          omega

theorem mem_enumFrom_of_getElem {α : Type} (l : List α) (n i : Nat)
    (hi : i < l.length) : (n + i, l[i]) ∈ List.enumFrom n l := by
  have hlen : i < (List.enumFrom n l).length := by
    simpa using hi
  have := enumFrom_getElem l n i hi
  rw [List.getD_eq_getElem?_getD, List.getElem?_eq_getElem hlen] at this
  simp only [Option.getD_some] at this
  rw [← this]
  exact (List.enumFrom n l).getElem_mem hlen

theorem enumFrom_filter_ne_length {α : Type} :
    ∀ (l : List α) (n jpos : Nat), n ≤ jpos → jpos < n + l.length →
      ((List.enumFrom n l).filter (fun q => q.1 ≠ jpos)).length = l.length - 1 := by
  intro l
  induction l with
  | nil =>
      intro n jpos h1 h2
      simp only [List.length_nil] at h2
      omega
  | cons a rest ih =>
      intro n jpos h1 h2
      simp only [List.length_cons] at h2
      simp only [List.enumFrom, List.filter_cons]
      by_cases hj : n = jpos
      · subst hj
        rw [if_neg (by simp)]
        have hall : (List.enumFrom (n + 1) rest).filter (fun q => q.1 ≠ n) =
            List.enumFrom (n + 1) rest := by
          rw [List.filter_eq_self]
          intro p hp
          have := mem_enumFrom_fst_ge hp
          simp only [ne_eq, decide_eq_true_eq]
          omega
        rw [hall]
        simp
      · rw [if_pos (by simp [hj])]
        have hlt : n < jpos := by omega
        have hrest : 1 ≤ rest.length := by omega
        have hih := ih (n + 1) jpos (by omega) (by omega)
        simp only [List.length_cons]
        rw [hih]
        omega

theorem enumFrom_filter_eq_single {l : List Symbol} (hnd : l.Nodup) :
    ∀ (n i : Nat) (hi : i < l.length),
      (List.enumFrom n l).filter (fun p => p.2 = l[i]) = [(n + i, l[i])] := by
  induction l with
  | nil => intro n i hi; simp at hi
  | cons a rest ih =>
      intro n i hi
      rw [List.nodup_cons] at hnd
      match i with
      | 0 =>
          simp only [List.enumFrom, List.filter_cons]
          rw [if_pos (by simp)]
          have hrest : (List.enumFrom (n + 1) rest).filter
              (fun p => p.2 = (a :: rest)[0]) = [] := by
            rw [List.filter_eq_nil_iff]
            intro p hp
            have hmem : p.2 ∈ rest := by
              have := List.enumFrom_map_snd (n + 1) rest
              rw [← this]
              exact List.mem_map_of_mem Prod.snd hp
            simp only [List.getElem_cons_zero, decide_eq_true_eq]
            intro hcontra
            rw [hcontra] at hmem
            exact hnd.1 hmem
          rw [hrest]
          simp
      | j + 1 =>
          have hj : j < rest.length := by simpa using hi
          simp only [List.enumFrom, List.filter_cons]
          rw [show (a :: rest)[j + 1] = rest[j] from by simp]
          rw [if_neg ?_]
          · have := ih hnd.2 (n + 1) j hj
            rw [this]
            congr 2
            omega
          · simp only [decide_eq_true_eq]
            intro hcontra
            rw [hcontra] at hnd
            exact hnd.1 (rest.getElem_mem hj)

theorem lastIdxOf_getElem {seq : List Symbol} (hnd : seq.Nodup) {i : Nat}
    (hi : i < seq.length) : lastIdxOf seq seq[i] = some i := by
  unfold lastIdxOf
  have henum : seq.enum = List.enumFrom 0 seq := rfl
  rw [henum, enumFrom_filter_eq_single hnd 0 i hi]
  simp


/-- The adjacency-building double loop of `RefereceMap::new`, flattened into
a single list of `(key, pushed values)` steps, one per group member. -/
def refSteps (refs : List (List Span)) (seq : List Symbol) :
    List (Nat × List Nat) :=
  refs.flatMap (fun g =>
    g.enum.map (fun p =>
      ((lastIdxOf seq (Symbol.new p.2)).getD 0,
       (g.enum.filter (fun q => q.1 ≠ p.1)).map
         (fun q => (lastIdxOf seq (Symbol.new q.2)).getD 0))))

theorem buildReferences_eq (refs : List (List Span)) (seq : List Symbol) :
    buildReferences refs seq =
      (refSteps refs seq).foldl (fun m p => IdxMap.addMany p.1 p.2 m) [] := by
  unfold buildReferences refSteps
  generalize ([] : IdxMap) = m0
  induction refs generalizing m0 with
  | nil => simp
  | cons g rest ih =>
      rw [List.foldl_cons, List.flatMap_cons, List.foldl_append, ih]
      congr 1
      rw [List.foldl_map]

theorem refSteps_keys (refs : List (List Span)) (seq : List Symbol) :
    (refSteps refs seq).map Prod.fst =
      (allSymbols refs).map (fun s => (lastIdxOf seq s).getD 0) := by
  unfold refSteps allSymbols
  induction refs with
  | nil => simp
  | cons g rest ih =>
      rw [List.flatMap_cons, List.flatMap_cons, List.map_append, List.map_append, ih]
      congr 1
      rw [List.map_map, List.map_map]
      conv_rhs => rw [show g = g.enum.map Prod.snd from (List.enum_map_snd g).symm]
      rw [List.map_map]
      rfl

theorem refSteps_keys_nodup (refs : List (List Span))
    (hnd : (allSymbols refs).Nodup) :
    ((refSteps refs (sortSymbols (allSymbols refs))).map Prod.fst).Nodup := by
  have hperm : (sortSymbols (allSymbols refs)).Perm (allSymbols refs) :=
    sortSymbols_perm _
  have hseqnd : (sortSymbols (allSymbols refs)).Nodup :=
    hperm.nodup_iff.mpr hnd
  rw [refSteps_keys]
  refine List.Nodup.map_on ?_ hnd
  intro s hs s2 hs2 heq
  obtain ⟨i, hi, hgi⟩ := List.mem_iff_getElem.mp (hperm.mem_iff.mpr hs)
  obtain ⟨j, hj, hgj⟩ := List.mem_iff_getElem.mp (hperm.mem_iff.mpr hs2)
  rw [← hgi, ← hgj] at heq ⊢
  rw [lastIdxOf_getElem hseqnd hi, lastIdxOf_getElem hseqnd hj] at heq
  simp only [Option.getD_some] at heq
  subst heq
  rfl

theorem step_mem_refSteps (refs : List (List Span)) (seq : List Symbol)
    {g : List Span} (hg : g ∈ refs) {jpos : Nat} (hj : jpos < g.length) :
    ((lastIdxOf seq (Symbol.new g[jpos])).getD 0,
     (g.enum.filter (fun q => q.1 ≠ jpos)).map
       (fun q => (lastIdxOf seq (Symbol.new q.2)).getD 0)) ∈ refSteps refs seq := by
  unfold refSteps
  refine List.mem_flatMap.mpr ⟨g, hg, ?_⟩
  refine List.mem_map.mpr ⟨(jpos, g[jpos]), ?_, rfl⟩
  have := mem_enumFrom_of_getElem g 0 jpos hj
  simpa [List.enum] using this

theorem references_lookup (refs : List (List Span))
    (hnd : (allSymbols refs).Nodup) {g : List Span} (hg : g ∈ refs)
    {jpos : Nat} (hj : jpos < g.length) :
    IdxMap.lookup
      ((lastIdxOf (RefereceMap.new refs).symbol_seq (Symbol.new g[jpos])).getD 0)
      (RefereceMap.new refs).references =
      some ((g.enum.filter (fun q => q.1 ≠ jpos)).map
        (fun q => (lastIdxOf (RefereceMap.new refs).symbol_seq
          (Symbol.new q.2)).getD 0)) := by
  have hseq : (RefereceMap.new refs).symbol_seq = sortSymbols (allSymbols refs) :=
    new_symbol_seq_eq refs
  have href : (RefereceMap.new refs).references =
      buildReferences refs (sortSymbols (allSymbols refs)) := by
    show buildReferences refs (RefereceMap.new refs).symbol_seq = _
    rw [hseq]
  rw [hseq, href, buildReferences_eq]
  exact lookup_fold_mem (refSteps_keys_nodup refs hnd)
    (step_mem_refSteps refs _ hg hj) [] rfl


/-- C8 (error_handling): for a reference map built from groups whose spans
denote pairwise-distinct Symbols (as the analysis produces — each group is
one link name\x27s occurrence spans, all distinct source positions),
`query_with_self` always includes the matched Symbol itself, last in the
returned list; it returns `none` exactly when the binary search matches no
Symbol in the table; and the result\x27s length equals the length of the
group containing the matched Symbol — a singleton `[self]` when the symbol
has no partner, exactly two entries including itself when it has one. -/
theorem query_with_self_behavior (refs : List (List Span))
    (hnd : (allSymbols refs).Nodup) (line col : Nat) :
    ((RefereceMap.new refs).query_with_self line col = none ↔
      find line col (RefereceMap.new refs).symbol_seq = none) ∧
    (∀ i, find line col (RefereceMap.new refs).symbol_seq = some i →
      ∃ l, (RefereceMap.new refs).query_with_self line col = some l ∧
        (RefereceMap.new refs).symbol_seq.getD i default ∈ l ∧
        l.getLast? = some ((RefereceMap.new refs).symbol_seq.getD i default) ∧
        ∀ g ∈ refs, ∀ sp ∈ g,
          Symbol.new sp = (RefereceMap.new refs).symbol_seq.getD i default →
            l.length = g.length) := by
  have hperm : (RefereceMap.new refs).symbol_seq.Perm (allSymbols refs) := by
    rw [new_symbol_seq_eq refs]
    exact sortSymbols_perm _
  have hseqnd : (RefereceMap.new refs).symbol_seq.Nodup :=
    hperm.nodup_iff.mpr hnd
  have hsome : ∀ i, find line col (RefereceMap.new refs).symbol_seq = some i →
      ∃ l, (RefereceMap.new refs).query_with_self line col = some l ∧
        (RefereceMap.new refs).symbol_seq.getD i default ∈ l ∧
        l.getLast? = some ((RefereceMap.new refs).symbol_seq.getD i default) ∧
        ∀ g ∈ refs, ∀ sp ∈ g,
          Symbol.new sp = (RefereceMap.new refs).symbol_seq.getD i default →
            l.length = g.length := by
    intro i hfind
    -- the matched index is in bounds
    have hi : i < (RefereceMap.new refs).symbol_seq.length := by
      rw [find] at hfind
      by_cases hemp : (RefereceMap.new refs).symbol_seq.isEmpty
      · rw [if_pos hemp] at hfind
        cases hfind
      · rw [if_neg hemp] at hfind
        have hlen : 0 < (RefereceMap.new refs).symbol_seq.length := by
          rcases h : (RefereceMap.new refs).symbol_seq with _ | ⟨a, l⟩
          · rw [h] at hemp
            simp at hemp
          · simp
        exact (find_loop_sound line col _ i 0 _ (by omega) hfind).1
    -- the matched symbol comes from some group member
    have hmem : (RefereceMap.new refs).symbol_seq.getD i default ∈
        allSymbols refs := by
      rw [getD_default_eq hi]
      exact hperm.subset ((RefereceMap.new refs).symbol_seq.getElem_mem hi)
    obtain ⟨g, hg, hmem2⟩ := List.mem_flatMap.mp hmem
    obtain ⟨sp, hsp, hspeq⟩ := List.mem_map.mp hmem2
    obtain ⟨jpos, hj, hjeq⟩ := List.mem_iff_getElem.mp hsp
    -- its canonical index is i, and its references entry exists
    have hcanon : lastIdxOf (RefereceMap.new refs).symbol_seq
        (Symbol.new g[jpos]) = some i := by
      rw [hjeq, hspeq, getD_default_eq hi]
      exact lastIdxOf_getElem hseqnd hi
    have hlookup := references_lookup refs hnd hg hj
    rw [hcanon] at hlookup
    simp only [Option.getD_some] at hlookup
    refine ⟨((g.enum.filter (fun q => q.1 ≠ jpos)).map
        (fun q => (lastIdxOf (RefereceMap.new refs).symbol_seq
          (Symbol.new q.2)).getD 0)).map
            (fun idx => (RefereceMap.new refs).symbol_seq.getD idx default) ++
        [(RefereceMap.new refs).symbol_seq.getD i default], ?_, ?_, ?_, ?_⟩
    · simp only [RefereceMap.query_with_self, hfind, hlookup, Option.bind_eq_bind,
        Option.some_bind]
    · simp
    · exact List.getLast?_concat _
    · intro g2 hg2 sp2 hsp2 heq2
      obtain ⟨jpos2, hj2, hjeq2⟩ := List.mem_iff_getElem.mp hsp2
      have hcanon2 : lastIdxOf (RefereceMap.new refs).symbol_seq
          (Symbol.new g2[jpos2]) = some i := by
        rw [hjeq2, heq2, getD_default_eq hi]
        exact lastIdxOf_getElem hseqnd hi
      have hlookup2 := references_lookup refs hnd hg2 hj2
      rw [hcanon2] at hlookup2
      simp only [Option.getD_some] at hlookup2
      have heqv := hlookup.symm.trans hlookup2
      have heqv2 := Option.some.inj heqv
      have hflen : ((g2.enum.filter (fun q => q.1 ≠ jpos2)).length) =
          g2.length - 1 := by
        have := enumFrom_filter_ne_length g2 0 jpos2 (by omega) (by omega)
        simpa [List.enum] using this
      have hg2len : 1 ≤ g2.length := by
        rcases g2 with _ | ⟨a, l⟩
        · simp at hj2
        · simp
      rw [List.length_append, List.length_map, heqv2, List.length_map, hflen]
      simp
      omega
  refine ⟨⟨?_, ?_⟩, hsome⟩
  · intro hq
    rcases hfind : find line col (RefereceMap.new refs).symbol_seq with _ | i
    · rfl
    · obtain ⟨l, hl, _⟩ := hsome i hfind
      rw [hl] at hq
      cases hq
  · intro hfind
    simp only [RefereceMap.query_with_self, hfind, Option.bind_eq_bind,
      Option.none_bind]


/-- Witness for `query_with_self_behavior`: a pair group and a singleton
group; querying inside the singleton group\x27s symbol returns a singleton
list containing just that symbol. -/
theorem query_with_self_behavior_witness :
    (allSymbols [[⟨⟨0, 0⟩, ⟨0, 1⟩, 1⟩, ⟨⟨0, 2⟩, ⟨0, 3⟩, 1⟩],
      [⟨⟨1, 1⟩, ⟨1, 3⟩, 2⟩]]).Nodup ∧
    ∃ l, (RefereceMap.new [[⟨⟨0, 0⟩, ⟨0, 1⟩, 1⟩, ⟨⟨0, 2⟩, ⟨0, 3⟩, 1⟩],
        [⟨⟨1, 1⟩, ⟨1, 3⟩, 2⟩]]).query_with_self 1 2 = some l ∧
      (RefereceMap.new [[⟨⟨0, 0⟩, ⟨0, 1⟩, 1⟩, ⟨⟨0, 2⟩, ⟨0, 3⟩, 1⟩],
        [⟨⟨1, 1⟩, ⟨1, 3⟩, 2⟩]]).symbol_seq.getD 2 default ∈ l ∧
      l.length = 1 := by
  have hnd : (allSymbols [[⟨⟨0, 0⟩, ⟨0, 1⟩, 1⟩, ⟨⟨0, 2⟩, ⟨0, 3⟩, 1⟩],
      [⟨⟨1, 1⟩, ⟨1, 3⟩, 2⟩]]).Nodup := by decide
  have h := query_with_self_behavior [[⟨⟨0, 0⟩, ⟨0, 1⟩, 1⟩, ⟨⟨0, 2⟩, ⟨0, 3⟩, 1⟩],
    [⟨⟨1, 1⟩, ⟨1, 3⟩, 2⟩]] hnd 1 2
  have hseq : (RefereceMap.new [[⟨⟨0, 0⟩, ⟨0, 1⟩, 1⟩, ⟨⟨0, 2⟩, ⟨0, 3⟩, 1⟩],
      [⟨⟨1, 1⟩, ⟨1, 3⟩, 2⟩]]).symbol_seq = [⟨0, 0, 1⟩, ⟨0, 2, 1⟩, ⟨1, 1, 2⟩] := by
    decide
  have hfind : find 1 2 (RefereceMap.new [[⟨⟨0, 0⟩, ⟨0, 1⟩, 1⟩, ⟨⟨0, 2⟩, ⟨0, 3⟩, 1⟩],
      [⟨⟨1, 1⟩, ⟨1, 3⟩, 2⟩]]).symbol_seq = some 2 := by
    rw [hseq]
    simp [find, find_loop, Symbol.is_inside]
  obtain ⟨l, hl, hmem, hlast, hlen⟩ := h.2 2 hfind
  refine ⟨hnd, l, hl, hmem, ?_⟩
  have := hlen [⟨⟨1, 1⟩, ⟨1, 3⟩, 2⟩] (by simp) ⟨⟨1, 1⟩, ⟨1, 3⟩, 2⟩ (by simp)
    (by rw [hseq]; decide)
  simpa using this


end LS
